import Mathlib

/-! # kardinal-manager: cluster_manager reconciliation engine

A shallow embedding of `cluster_manager.go`.  The Go code talks to the
Kubernetes API server and to the Istio control plane through typed clients;
here the cluster is an explicit state `World` that every routine receives and
returns.  A routine that returns a Go `error` returns an `Outcome`, which also
records a runtime panic (nil pointer dereference, write to a nil map).

The clients are collaborators of the engine, so `World` and the `api*` calls
are a model of the store, not a translation of repository code: objects are
keyed by (namespace, name) per kind, `Create` refuses a taken identity,
`Update` replaces the whole object and checks a non-empty version token,
every write hands out a fresh token, and `Delete` removes the object at once.
Any call may also fail for a reason outside the stored state; the script
`World.faults` decides which calls do.  Every call is appended to `World.log`.
Namespace names are plain names: the empty name has no special meaning here.
-/

set_option autoImplicit false

namespace Kardinal

/-! ## Objects -/

/-- Payload of a core Service (selector and ports stand for the whole spec). -/
structure ServiceSpec where
  Selector : List (String × String)
  Ports : List Nat
deriving DecidableEq, Repr

/-- Payload of an apps Deployment. -/
structure DeploymentSpec where
  Replicas : Nat
  Image : String
deriving DecidableEq, Repr

/-- One HTTP route of an Istio virtual service. -/
structure HTTPRoute where
  Name : String
  Destinations : List (String × String × Nat)
deriving DecidableEq, Repr

/-- Payload of an Istio virtual service; `Http` is the ordered rule list. -/
structure VirtualServiceSpec where
  Hosts : List String
  Gateways : List String
  Http : List HTTPRoute
deriving DecidableEq, Repr

/-- One named subset of an Istio destination rule. -/
structure Subset where
  Name : String
  Labels : List (String × String)
deriving DecidableEq, Repr

/-- Payload of an Istio destination rule. -/
structure DestinationRuleSpec where
  Host : String
  Subsets : List Subset
deriving DecidableEq, Repr

/-- Payload of an Istio gateway. -/
structure GatewaySpec where
  Selector : List (String × String)
  Servers : List String
deriving DecidableEq, Repr

/-- A namespaced object: the part of `ObjectMeta` the engine reads or writes,
plus the kind-specific payload.  `ResourceVersion` is the version token;
`0` stands for the empty token. -/
structure Obj (σ : Type) where
  Namespace : String
  Name : String
  ResourceVersion : Nat
  Labels : List (String × String)
  Spec : σ
deriving DecidableEq, Repr

/-- The object with its version token replaced. -/
def Obj.withVersion {σ : Type} (o : Obj σ) (v : Nat) : Obj σ :=
  ⟨o.Namespace, o.Name, v, o.Labels, o.Spec⟩

/-- The object with its payload replaced. -/
def Obj.withSpec {σ : Type} (o : Obj σ) (spec : σ) : Obj σ :=
  ⟨o.Namespace, o.Name, o.ResourceVersion, o.Labels, spec⟩

/-- A cluster namespace.  `Labels` is a Go map, which may be nil (`none`). -/
structure Namespace where
  Name : String
  Labels : Option (List (String × String))
  ResourceVersion : Nat
deriving DecidableEq, Repr

/-- The namespace with its version token replaced. -/
def Namespace.withVersion (n : Namespace) (v : Nat) : Namespace := ⟨n.Name, n.Labels, v⟩

/-- The namespace with its label map replaced. -/
def Namespace.withLabels (n : Namespace) (labels : Option (List (String × String))) : Namespace :=
  ⟨n.Name, labels, n.ResourceVersion⟩

/-- The five namespaced resource kinds the engine reconciles. -/
inductive Kind where
  | service
  | deployment
  | virtualService
  | destinationRule
  | gateway
deriving DecidableEq, Repr

/-- Payload type of each kind. -/
@[reducible] def Kind.Spec : Kind → Type
  | .service => ServiceSpec
  | .deployment => DeploymentSpec
  | .virtualService => VirtualServiceSpec
  | .destinationRule => DestinationRuleSpec
  | .gateway => GatewaySpec

abbrev Service := Obj ServiceSpec
abbrev Deployment := Obj DeploymentSpec
abbrev VirtualService := Obj VirtualServiceSpec
abbrev DestinationRule := Obj DestinationRuleSpec
abbrev Gateway := Obj GatewaySpec

/-- Modelled from the spec: the bundle type `types.ClusterResources` of the
manager-kontrol API is declared outside `cluster_manager.go`.  Every field is
a pointer that may be nil (`none`), distinct from present-but-empty. -/
structure ClusterResources where
  Deployments : Option (List Deployment)
  DestinationRules : Option (List DestinationRule)
  Gateway : Option Gateway
  Services : Option (List Service)
  VirtualServices : Option (List VirtualService)
deriving DecidableEq, Repr

/-! ## The cluster and its API -/

/-- Errors a client call can return. `unavailable` is a failure that does not
come from the stored state (timeout, refused connection, denied access). -/
inductive Err where
  | notFound
  | alreadyExists
  | conflict
  | unavailable
deriving DecidableEq, Repr

/-- How a routine ends: it returns nil, returns an error, or panics. -/
inductive Outcome where
  | nil
  | error (cause : Err)
  | panicked
deriving DecidableEq, Repr

/-- A call issued to the cluster. -/
inductive Call where
  | getNamespace (name : String)
  | createNamespace (n : Namespace)
  | updateNamespace (n : Namespace)
  | get (k : Kind) (ns name : String)
  | list (k : Kind) (ns : String)
  | create (k : Kind) (o : Obj k.Spec)
  | update (k : Kind) (o : Obj k.Spec)
  | delete (k : Kind) (ns name : String)

/-- The cluster: live objects, the last version token handed out, the script
of upcoming call failures (`true` makes the next call fail with
`unavailable`; an exhausted script means no failure), and the calls issued so
far. -/
structure World where
  namespaces : List Namespace
  services : List Service
  deployments : List Deployment
  virtualServices : List VirtualService
  destinationRules : List DestinationRule
  gateways : List Gateway
  version : Nat
  faults : List Bool
  log : List Call

/-- Live objects of one kind. -/
@[reducible] def World.objs (w : World) : (k : Kind) → List (Obj k.Spec)
  | .service => w.services
  | .deployment => w.deployments
  | .virtualService => w.virtualServices
  | .destinationRule => w.destinationRules
  | .gateway => w.gateways

/-- Replace the live objects of one kind. -/
def World.setObjs (w : World) : (k : Kind) → List (Obj k.Spec) → World
  | .service, l => { w with services := l }
  | .deployment, l => { w with deployments := l }
  | .virtualService, l => { w with virtualServices := l }
  | .destinationRule, l => { w with destinationRules := l }
  | .gateway, l => { w with gateways := l }

/-- Whether the next call is scripted to fail. -/
def World.faulty (w : World) : Bool := w.faults.headD false

/-- Record a call and consume one entry of the failure script. -/
def World.record (w : World) (c : Call) : World :=
  { w with faults := w.faults.tail, log := w.log ++ [c] }

/-- Hand out the next version token. -/
def World.bump (w : World) : World := { w with version := w.version + 1 }

/-- Replace the live namespaces. -/
def World.setNamespaces (w : World) (l : List Namespace) : World := { w with namespaces := l }

/-- No call from now on fails for a reason outside the stored state. -/
def World.reliable (w : World) : Prop := ∀ b ∈ w.faults, b = false

instance (w : World) : Decidable w.reliable :=
  inferInstanceAs (Decidable (∀ b ∈ w.faults, b = false))

/-- The next `n` calls do not fail for a reason outside the stored state. -/
def World.callsSucceed (w : World) (n : Nat) : Prop := ∀ b ∈ w.faults.take n, b = false

instance (w : World) (n : Nat) : Decidable (w.callsSucceed n) :=
  inferInstanceAs (Decidable (∀ b ∈ w.faults.take n, b = false))

/-- Identity of a namespaced object. -/
def Obj.hasKey {σ : Type} (o : Obj σ) (ns name : String) : Bool :=
  decide (o.Namespace = ns) && decide (o.Name = name)

/-- Names of the live objects of a kind in a namespace, in list order. -/
def World.liveNames (w : World) (k : Kind) (ns : String) : List String :=
  ((w.objs k).filter (fun o => decide (o.Namespace = ns))).map (fun o => o.Name)

/-- Identities are unique per kind, and namespace names are unique: the live
sets are sets. -/
def World.WF (w : World) : Prop :=
  (∀ k : Kind, ((w.objs k).map (fun o => (o.Namespace, o.Name))).Nodup) ∧
    (w.namespaces.map (fun n => n.Name)).Nodup

/-- Client `Get` of a namespaced object. -/
def apiGet (k : Kind) (w : World) (ns name : String) : Except Err (Obj k.Spec) × World :=
  let w1 := w.record (.get k ns name)
  if w.faulty then (.error .unavailable, w1)
  else match (w1.objs k).find? (fun o => o.hasKey ns name) with
    | some o => (.ok o, w1)
    | none => (.error .notFound, w1)

/-- Client `List` of the objects of a kind in a namespace. -/
def apiList (k : Kind) (w : World) (ns : String) : Except Err (List (Obj k.Spec)) × World :=
  let w1 := w.record (.list k ns)
  if w.faulty then (.error .unavailable, w1)
  else (.ok ((w1.objs k).filter (fun o => decide (o.Namespace = ns))), w1)

/-- Client `Create`: refused when the identity is taken; the stored object
receives a fresh version token. -/
def apiCreate (k : Kind) (w : World) (o : Obj k.Spec) : Except Err (Obj k.Spec) × World :=
  let w1 := w.record (.create k o)
  if w.faulty then (.error .unavailable, w1)
  else if (w1.objs k).any (fun x => x.hasKey o.Namespace o.Name) then (.error .alreadyExists, w1)
  else
    let stored : Obj k.Spec := o.withVersion (w1.version + 1)
    (.ok stored, (w1.setObjs k (w1.objs k ++ [stored])).bump)

/-- Client `Update`: a full replace of the live object with the same identity.
A non-empty version token must be the live one; the stored object receives a
fresh token. -/
def apiUpdate (k : Kind) (w : World) (o : Obj k.Spec) : Except Err (Obj k.Spec) × World :=
  let w1 := w.record (.update k o)
  if w.faulty then (.error .unavailable, w1)
  else match (w1.objs k).find? (fun x => x.hasKey o.Namespace o.Name) with
    | none => (.error .notFound, w1)
    | some live =>
      if o.ResourceVersion ≠ 0 ∧ o.ResourceVersion ≠ live.ResourceVersion then
        (.error .conflict, w1)
      else
        let stored : Obj k.Spec := o.withVersion (w1.version + 1)
        (.ok stored,
          (w1.setObjs k ((w1.objs k).map
            (fun x => if x.hasKey o.Namespace o.Name then stored else x))).bump)

/-- Client `Delete` by name (foreground cascade, zero grace period: the object
is gone when the call returns). -/
def apiDelete (k : Kind) (w : World) (ns name : String) : Option Err × World :=
  let w1 := w.record (.delete k ns name)
  if w.faulty then (some .unavailable, w1)
  else if (w1.objs k).any (fun x => x.hasKey ns name) then
    (none, w1.setObjs k ((w1.objs k).filter (fun x => !x.hasKey ns name)))
  else (some .notFound, w1)

/-- Client `Get` of a namespace. -/
def apiGetNamespace (w : World) (name : String) : Except Err Namespace × World :=
  let w1 := w.record (.getNamespace name)
  if w.faulty then (.error .unavailable, w1)
  else match w1.namespaces.find? (fun n => decide (n.Name = name)) with
    | some n => (.ok n, w1)
    | none => (.error .notFound, w1)

/-- Client `Create` of a namespace. -/
def apiCreateNamespace (w : World) (n : Namespace) : Except Err Namespace × World :=
  let w1 := w.record (.createNamespace n)
  if w.faulty then (.error .unavailable, w1)
  else if w1.namespaces.any (fun x => decide (x.Name = n.Name)) then (.error .alreadyExists, w1)
  else
    let stored : Namespace := n.withVersion (w1.version + 1)
    (.ok stored, (w1.setNamespaces (w1.namespaces ++ [stored])).bump)

/-- Client `Update` of a namespace. -/
def apiUpdateNamespace (w : World) (n : Namespace) : Except Err Namespace × World :=
  let w1 := w.record (.updateNamespace n)
  if w.faulty then (.error .unavailable, w1)
  else match w1.namespaces.find? (fun x => decide (x.Name = n.Name)) with
    | none => (.error .notFound, w1)
    | some live =>
      if n.ResourceVersion ≠ 0 ∧ n.ResourceVersion ≠ live.ResourceVersion then
        (.error .conflict, w1)
      else
        let stored : Namespace := n.withVersion (w1.version + 1)
        (.ok stored,
          (w1.setNamespaces
            (w1.namespaces.map (fun x => if x.Name = n.Name then stored else x))).bump)

/-! ## Go helpers -/

/-- Read of a Go map (`v, found := m[key]`); a nil map reads as empty. -/
def mapGet (m : Option (List (String × String))) (key : String) : Option String :=
  match m with
  | none => none
  | some l => l.lookup key

/-- Write `m[key] = v` on a non-nil Go map. -/
def mapSet : List (String × String) → String → String → List (String × String)
  | [], key, v => [(key, v)]
  | (k, x) :: rest, key, v =>
    if k = key then (k, v) :: rest else (k, x) :: mapSet rest key v

/-- The function `lo.Uniq`: drop repeated items, keeping first occurrences in order. -/
def Uniq {α : Type} [DecidableEq α] (collection : List α) : List α :=
  collection.foldl (fun result item => if item ∈ result then result else result ++ [item]) []

/-- The function `lo.GroupBy`, with the resulting Go map listed by first
occurrence of each key. -/
def GroupBy {α : Type} (collection : List α) (iteratee : α → String) : List (String × List α) :=
  (Uniq (collection.map iteratee)).map
    (fun key => (key, collection.filter (fun item => decide (iteratee item = key))))

/-- A `for ... range` loop whose body may return an error (or panic): the
first outcome other than nil ends the loop. -/
def forRange {α : Type} (body : World → α → Outcome × World) : World → List α → Outcome × World
  | w, [] => (.nil, w)
  | w, x :: xs =>
    match body w x with
    | (.nil, w1) => forRange body w1 xs
    | (r, w1) => (r, w1)

/-! ## cluster_manager.go -/

def istioLabel : String := "istio-injection"

def enabledIstioValue : String := "enabled"

/-- The routine `AddRoutingRule`: prepend a rule to a stored virtual service.
The rule pointer is taken to be non-nil. -/
def AddRoutingRule (w : World) (namespace_ vsName : String) (routingRule : HTTPRoute) :
    Outcome × World :=
  match apiGet .virtualService w namespace_ vsName with
  | (.error e, w1) => (.error e, w1)
  | (.ok vs, w1) =>
    let vs1 : VirtualService :=
      vs.withSpec ⟨vs.Spec.Hosts, vs.Spec.Gateways, routingRule :: vs.Spec.Http⟩
    match apiUpdate .virtualService w1 vs1 with
    | (.error e, w2) => (.error e, w2)
    | (.ok _, w2) => (.nil, w2)

/-- The scan of `AddSubset`.  The body `s = subset` rebinds the loop variable,
a copy of the slice element, so the slice is not written; only the flag
`shouldAddNewSubset` is. -/
def shouldAddNewSubset (subsets : List Subset) (subset : Subset) : Bool :=
  subsets.foldl (fun flag s => if s.Name = subset.Name then false else flag) true

/-- The routine `AddSubset`.  The subset pointer and the stored subsets are
taken to be non-nil. -/
def AddSubset (w : World) (namespace_ drName : String) (subset : Subset) : Outcome × World :=
  match apiGet .destinationRule w namespace_ drName with
  | (.error e, w1) => (.error e, w1)
  | (.ok dr, w1) =>
    let dr1 : DestinationRule :=
      if shouldAddNewSubset dr.Spec.Subsets subset then
        dr.withSpec ⟨dr.Spec.Host, dr.Spec.Subsets ++ [subset]⟩
      else dr
    match apiUpdate .destinationRule w1 dr1 with
    | (.error e, w2) => (.error e, w2)
    | (.ok _, w2) => (.nil, w2)

/-- The function `isValid`. -/
def isValid (clusterResources : Option ClusterResources) : Bool :=
  match clusterResources with
  | none => false
  | some cr =>
    if cr.Gateway.isNone && cr.Deployments.isNone && cr.DestinationRules.isNone &&
        cr.Services.isNone && cr.VirtualServices.isNone then false
    else true

/-- The routine `ensureNamespace`.  The result of the label `Update` is
discarded; writing the label into a nil map panics. -/
def ensureNamespace (w : World) (name : String) : Outcome × World :=
  match apiGetNamespace w name with
  | (.ok existingNamespace, w1) =>
    if mapGet existingNamespace.Labels istioLabel ≠ some enabledIstioValue then
      match existingNamespace.Labels with
      | none => (.panicked, w1)
      | some labels =>
        let updated : Namespace :=
          existingNamespace.withLabels (some (mapSet labels istioLabel enabledIstioValue))
        (.nil, (apiUpdateNamespace w1 updated).2)
    else (.nil, w1)
  | (.error _, w1) =>
    let newNamespace : Namespace :=
      { Name := name, Labels := some [(istioLabel, enabledIstioValue)], ResourceVersion := 0 }
    match apiCreateNamespace w1 newNamespace with
    | (.error e, w2) => (.error e, w2)
    | (.ok _, w2) => (.nil, w2)

/-- The five `createOrUpdate<Kind>` routines, which differ only in the typed
client.  Any error of `Get` selects the create branch.  The second component
is the caller's object after the call: the update branch writes the live
version token into it. -/
def createOrUpdate (k : Kind) (w : World) (resource : Obj k.Spec) :
    Outcome × Obj k.Spec × World :=
  match apiGet k w resource.Namespace resource.Name with
  | (.error _, w1) =>
    match apiCreate k w1 resource with
    | (.error e, w2) => (.error e, resource, w2)
    | (.ok _, w2) => (.nil, resource, w2)
  | (.ok existing, w1) =>
    let resource1 : Obj k.Spec := resource.withVersion existing.ResourceVersion
    match apiUpdate k w1 resource1 with
    | (.error e, w2) => (.error e, resource1, w2)
    | (.ok _, w2) => (.nil, resource1, w2)

def createOrUpdateService (w : World) (service : Service) : Outcome × Service × World :=
  createOrUpdate .service w service

def createOrUpdateDeployment (w : World) (deployment : Deployment) :
    Outcome × Deployment × World :=
  createOrUpdate .deployment w deployment

def createOrUpdateVirtualService (w : World) (virtualService : VirtualService) :
    Outcome × VirtualService × World :=
  createOrUpdate .virtualService w virtualService

def createOrUpdateDestinationRule (w : World) (destinationRule : DestinationRule) :
    Outcome × DestinationRule × World :=
  createOrUpdate .destinationRule w destinationRule

def createOrUpdateGateway (w : World) (gateway : Gateway) : Outcome × Gateway × World :=
  createOrUpdate .gateway w gateway

/-- The routine a loop of `ApplyClusterResources` runs on the address of its
loop variable: the change to that copy is not seen by the caller. -/
def upsertCopy (k : Kind) (w : World) (resource : Obj k.Spec) : Outcome × World :=
  ((createOrUpdate k w resource).1, (createOrUpdate k w resource).2.2)

/-- The five `cleanUp<Kind>InNamespace` routines, which differ only in the
typed client: list the namespace, delete every live object whose name is not
found among the objects to keep. -/
def cleanUpInNamespace (k : Kind) (w : World) (namespace_ : String) (toKeep : List (Obj k.Spec)) :
    Outcome × World :=
  match apiList k w namespace_ with
  | (.error e, w1) => (.error e, w1)
  | (.ok all, w1) =>
    forRange (fun w2 (live : Obj k.Spec) =>
      if (toKeep.find? (fun item => decide (item.Name = live.Name))).isSome then (.nil, w2)
      else match apiDelete k w2 namespace_ live.Name with
        | (some e, w3) => (.error e, w3)
        | (none, w3) => (.nil, w3)) w1 all

def cleanUpServicesInNamespace (w : World) (namespace_ : String) (servicesToKeep : List Service) :
    Outcome × World :=
  cleanUpInNamespace .service w namespace_ servicesToKeep

def cleanUpDeploymentsInNamespace (w : World) (namespace_ : String)
    (deploymentsToKeep : List Deployment) : Outcome × World :=
  cleanUpInNamespace .deployment w namespace_ deploymentsToKeep

def cleanUpVirtualServicesInNamespace (w : World) (namespace_ : String)
    (virtualServicesToKeep : List VirtualService) : Outcome × World :=
  cleanUpInNamespace .virtualService w namespace_ virtualServicesToKeep

def cleanUpDestinationRulesInNamespace (w : World) (namespace_ : String)
    (destinationRulesToKeep : List DestinationRule) : Outcome × World :=
  cleanUpInNamespace .destinationRule w namespace_ destinationRulesToKeep

def cleanUpGatewaysInNamespace (w : World) (namespace_ : String) (gatewaysToKeep : List Gateway) :
    Outcome × World :=
  cleanUpInNamespace .gateway w namespace_ gatewaysToKeep

/-- The namespaces `ApplyClusterResources` ensures, in order (`uniqueNamespaces`). -/
def uniqueNamespaces (services : List Service) (deployments : List Deployment)
    (virtualServices : List VirtualService) (destinationRules : List DestinationRule)
    (gateway : Gateway) : List String :=
  Uniq (List.flatten
    [Uniq (services.map (fun item => item.Namespace)),
     Uniq (deployments.map (fun item => item.Namespace)),
     Uniq (virtualServices.map (fun item => item.Namespace)),
     Uniq (destinationRules.map (fun item => item.Namespace)),
     [gateway.Namespace]])

/-- The upsert phase of `ApplyClusterResources`, after the namespaces are
ensured.  The gateway is passed by pointer, so the bundle's gateway is the
one returned by `createOrUpdateGateway`. -/
def applyUpserts (w : World) (services : List Service) (deployments : List Deployment)
    (virtualServices : List VirtualService) (destinationRules : List DestinationRule)
    (gateway : Gateway) : Outcome × Gateway × World :=
  match forRange (upsertCopy .service) w services with
  | (.nil, w1) =>
    match forRange (upsertCopy .deployment) w1 deployments with
    | (.nil, w2) =>
      match forRange (upsertCopy .virtualService) w2 virtualServices with
      | (.nil, w3) =>
        match forRange (upsertCopy .destinationRule) w3 destinationRules with
        | (.nil, w4) => createOrUpdateGateway w4 gateway
        | (r, w4) => (r, gateway, w4)
      | (r, w3) => (r, gateway, w3)
    | (r, w2) => (r, gateway, w2)
  | (r, w1) => (r, gateway, w1)

/-- The routine `ApplyClusterResources`.  The second component is the bundle
after the call.  Building `allNSs` dereferences all five fields, so a valid
bundle with an absent field panics before any call is issued. -/
def ApplyClusterResources (w : World) (clusterResources : Option ClusterResources) :
    Outcome × Option ClusterResources × World :=
  if !isValid clusterResources then (.nil, clusterResources, w)
  else match clusterResources with
    | none => (.panicked, clusterResources, w)
    | some cr =>
      match cr.Services, cr.Deployments, cr.VirtualServices, cr.DestinationRules, cr.Gateway with
      | some services, some deployments, some virtualServices, some destinationRules,
          some gateway =>
        match forRange ensureNamespace w
            (uniqueNamespaces services deployments virtualServices destinationRules gateway) with
        | (.nil, w1) =>
          match applyUpserts w1 services deployments virtualServices destinationRules gateway with
          | (r, gateway1, w2) => (r, some { cr with Gateway := some gateway1 }, w2)
        | (r, w1) => (r, clusterResources, w1)
      | _, _, _, _, _ => (.panicked, clusterResources, w)

/-- One `for namespace, items := range byNS` loop of `CleanUpClusterResources`.
Go leaves the order of a map range unspecified: `rangeOrder` gives the order
in which the keys are visited. -/
def cleanUpGroups (k : Kind) (rangeOrder : List String → List String) (w : World)
    (items : List (Obj k.Spec)) : Outcome × World :=
  let byNS := GroupBy items (fun item => item.Namespace)
  forRange (fun w1 (group : String × List (Obj k.Spec)) => cleanUpInNamespace k w1 group.1 group.2)
    w ((rangeOrder (byNS.map (fun g => g.1))).filterMap
        (fun key => (byNS.lookup key).map (fun g => (key, g))))

/-- The routine `CleanUpClusterResources`.  Each collection is dereferenced
when its step is reached, so an absent field panics after the earlier steps
have run. -/
def CleanUpClusterResources (rangeOrder : List String → List String) (w : World)
    (clusterResources : Option ClusterResources) : Outcome × World :=
  if !isValid clusterResources then (.nil, w)
  else match clusterResources with
    | none => (.panicked, w)
    | some cr =>
      match cr.Services with
      | none => (.panicked, w)
      | some services =>
        match cleanUpGroups .service rangeOrder w services with
        | (.nil, w1) =>
          match cr.Deployments with
          | none => (.panicked, w1)
          | some deployments =>
            match cleanUpGroups .deployment rangeOrder w1 deployments with
            | (.nil, w2) =>
              match cr.VirtualServices with
              | none => (.panicked, w2)
              | some virtualServices =>
                match cleanUpGroups .virtualService rangeOrder w2 virtualServices with
                | (.nil, w3) =>
                  match cr.DestinationRules with
                  | none => (.panicked, w3)
                  | some destinationRules =>
                    match cleanUpGroups .destinationRule rangeOrder w3 destinationRules with
                    | (.nil, w4) =>
                      match cr.Gateway with
                      | none => (.panicked, w4)
                      | some gateway =>
                        cleanUpGatewaysInNamespace w4 gateway.Namespace [gateway]
                    | (r, w4) => (r, w4)
                | (r, w3) => (r, w3)
            | (r, w2) => (r, w2)
        | (r, w1) => (r, w1)

/-! ## Notions used in the statements -/

/-- Whether a call addresses the namespace client. -/
def Call.isNamespaceCall : Call → Bool
  | .getNamespace _ => true
  | .createNamespace _ => true
  | .updateNamespace _ => true
  | _ => false

/-- The namespaces read by `Get` in a call sequence: `ensureNamespace` starts
with exactly one such read, so this is the sequence of its invocations. -/
def ensuredNamespaces (calls : List Call) : List String :=
  calls.filterMap (fun c => match c with
    | .getNamespace name => some name
    | _ => none)

/-- Whether a call is a `Create` of a namespaced object. -/
def Call.isCreate : Call → Bool
  | .create _ _ => true
  | _ => false

/-- Whether a call is an `Update` of a namespaced object. -/
def Call.isUpdate : Call → Bool
  | .update _ _ => true
  | _ => false

/-- The live list with every version token erased. -/
def eraseTokens {σ : Type} (l : List (Obj σ)) : List (Obj σ) := l.map (fun o => o.withVersion 0)

/-- The live resource set with version tokens erased: what two clusters are
compared on. -/
structure LiveSet where
  namespaces : List Namespace
  services : List Service
  deployments : List Deployment
  virtualServices : List VirtualService
  destinationRules : List DestinationRule
  gateways : List Gateway
deriving DecidableEq

/-- The live resource set of a cluster. -/
def World.liveSet (w : World) : LiveSet :=
  { namespaces := w.namespaces.map (fun n => n.withVersion 0),
    services := eraseTokens w.services,
    deployments := eraseTokens w.deployments,
    virtualServices := eraseTokens w.virtualServices,
    destinationRules := eraseTokens w.destinationRules,
    gateways := eraseTokens w.gateways }

/-- The effect of one upsert on the live list of a kind: a full replace of
the object with the identity of `d`, or `d` appended; `v` is the token the
store hands out. -/
def upsert {σ : Type} (l : List (Obj σ)) (d : Obj σ) (v : Nat) : List (Obj σ) :=
  match l.find? (fun x => x.hasKey d.Namespace d.Name) with
  | none => l ++ [d.withVersion v]
  | some _ => l.map (fun x => if x.hasKey d.Namespace d.Name then d.withVersion v else x)

/-- What `o` becomes when the desired object `d` is written over its identity. -/
def overwrite {σ : Type} (o d : Obj σ) : Obj σ :=
  if o.hasKey d.Namespace d.Name then d.withVersion 0 else o

/-- The objects of each kind a full bundle asks for, in upsert order. -/
def desiredOf (services : List Service) (deployments : List Deployment)
    (virtualServices : List VirtualService) (destinationRules : List DestinationRule)
    (gateway : Gateway) : (k : Kind) → List (Obj k.Spec)
  | .service => services
  | .deployment => deployments
  | .virtualService => virtualServices
  | .destinationRule => destinationRules
  | .gateway => [gateway]

/-- The namespace `name` is stored and carries the enabled injection label. -/
def labelled (name : String) (nss : List Namespace) : Prop :=
  ∃ x, nss.find? (fun y => decide (y.Name = name)) = some x ∧
    mapGet x.Labels istioLabel = some enabledIstioValue

/-- The namespaces in which a bundle holds an object of a kind. -/
def scopeOf (desired : (k : Kind) → List (Obj k.Spec)) (k : Kind) : List String :=
  (desired k).map (fun item => item.Namespace)

/-- The names a bundle asks to keep for a kind in a namespace: the names of
its objects of that kind in that namespace. -/
def keepNames (desired : (k : Kind) → List (Obj k.Spec)) (k : Kind) (ns : String) :
    List String :=
  ((desired k).filter (fun item => decide (item.Namespace = ns))).map (fun item => item.Name)

/-- Whether a call is a `List` of a pair (namespace, kind) the bundle holds an
object of, or a `Delete` in such a pair of a name the bundle does not keep
there. -/
def Call.prunesWithin (desired : (k : Kind) → List (Obj k.Spec)) : Call → Bool
  | .list k ns => decide (ns ∈ scopeOf desired k)
  | .delete k ns name =>
    decide (ns ∈ scopeOf desired k) && !decide (name ∈ keepNames desired k ns)
  | _ => false

/-- The cluster `w2` comes from `w` by calls that prune within the bundle's
pairs: namespaces are as before, every new call is a `List` or `Delete` within
scope, and the live objects of each kind are the former ones minus some
objects, none of which lies outside the scope or is kept by the bundle. -/
def CleanUpScoped (desired : (k : Kind) → List (Obj k.Spec)) (w w2 : World) : Prop :=
  w2.namespaces = w.namespaces ∧
    (∃ calls : List Call, w2.log = w.log ++ calls ∧
      ∀ c ∈ calls, c.prunesWithin desired = true) ∧
    ∀ k : Kind, ∃ p : Obj k.Spec → Bool, w2.objs k = (w.objs k).filter p ∧
      ∀ x : Obj k.Spec, (x.Namespace ∉ scopeOf desired k ∨
        x.Name ∈ keepNames desired k x.Namespace) → p x = true

/-- The cluster `w2` differs from `w` at most in the live objects of kind `k`,
and is reliable if `w` is. -/
def OnlyKind (k : Kind) (w w2 : World) : Prop :=
  (∀ k2, k2 ≠ k → w2.objs k2 = w.objs k2) ∧ w2.namespaces = w.namespaces ∧
    (w.reliable → w2.reliable)

/-! ## Concrete clusters used in the examples -/

/-- The cluster with nothing stored and no scripted failure. -/
def emptyWorld : World :=
  { namespaces := [], services := [], deployments := [], virtualServices := [],
    destinationRules := [], gateways := [], version := 0, faults := [], log := [] }

/-- The virtual service `orders` with one rule. -/
def ordersVS : VirtualService :=
  { Namespace := "shop", Name := "orders", ResourceVersion := 1, Labels := [],
    Spec := { Hosts := ["orders"], Gateways := [],
              Http := [{ Name := "stable", Destinations := [("orders", "v1", 100)] }] } }

/-- A rule to add. -/
def canaryRoute : HTTPRoute := { Name := "canary", Destinations := [("orders", "v2", 100)] }

/-- The virtual service `orders` is stored with token 1. -/
def routingWorld : World := { emptyWorld with virtualServices := [ordersVS], version := 1 }

/-- The destination rule `orders` with the subset `v1`. -/
def ordersDR : DestinationRule :=
  { Namespace := "shop", Name := "orders", ResourceVersion := 1, Labels := [],
    Spec := { Host := "orders", Subsets := [{ Name := "v1", Labels := [("version", "v1")] }] } }

/-- The destination rule `orders` is stored with token 1. -/
def subsetWorld : World := { emptyWorld with destinationRules := [ordersDR], version := 1 }

/-- A subset named `v1` with new content. -/
def subsetV1 : Subset := { Name := "v1", Labels := [("version", "v1-new")] }

/-- A subset with a name not yet stored. -/
def subsetV2 : Subset := { Name := "v2", Labels := [("version", "v2")] }

/-- The namespace `shop` with a label map that lacks the injection label. -/
def shopNamespace : Namespace :=
  { Name := "shop", Labels := some [("team", "a")], ResourceVersion := 1 }

/-- The namespace `shop` lacks the injection label; the second call (the
label `Update`) is scripted to fail. -/
def labelWorld : World :=
  { emptyWorld with namespaces := [shopNamespace], version := 1, faults := [false, true] }

/-- The desired service `orders` in `shop`. -/
def ordersService : Service :=
  { Namespace := "shop", Name := "orders", ResourceVersion := 0, Labels := [],
    Spec := { Selector := [("app", "orders")], Ports := [80] } }

/-- The bundle with one service and the four other fields absent. -/
def servicesOnlyBundle : ClusterResources :=
  { Deployments := none, DestinationRules := none, Gateway := none,
    Services := some [ordersService], VirtualServices := none }

/-- The service `orders` is live with token 1; the first call (the `Get`) is
scripted to fail. -/
def getFailsWorld : World :=
  { emptyWorld with services := [ordersService.withVersion 1], version := 1, faults := [true] }

/-- The desired gateway, in the namespace `ingress`. -/
def ingressGateway : Gateway :=
  { Namespace := "ingress", Name := "gateway", ResourceVersion := 0, Labels := [],
    Spec := { Selector := [("istio", "ingressgateway")], Servers := ["*"] } }

/-- The desired deployment `orders` in `shop`. -/
def ordersDeployment : Deployment :=
  { Namespace := "shop", Name := "orders", ResourceVersion := 0, Labels := [],
    Spec := { Replicas := 1, Image := "orders:1" } }

/-- A bundle with all five fields present. -/
def fullBundle : ClusterResources :=
  { Deployments := some [ordersDeployment], DestinationRules := some [ordersDR],
    Gateway := some ingressGateway, Services := some [ordersService],
    VirtualServices := some [ordersVS] }

/-- A live service of `shop` that no bundle names. -/
def legacyService : Service :=
  { Namespace := "shop", Name := "legacy", ResourceVersion := 2, Labels := [],
    Spec := { Selector := [("app", "legacy")], Ports := [8080] } }

/-- A live service of another namespace with the name `legacy`. -/
def billingService : Service :=
  { Namespace := "billing", Name := "legacy", ResourceVersion := 3, Labels := [],
    Spec := { Selector := [("app", "legacy")], Ports := [8080] } }

/-- Three live services, two of them in `shop`. -/
def pruneWorld : World :=
  { emptyWorld with
    services := [ordersService.withVersion 1, legacyService, billingService], version := 3 }

/-- A live service of `shop` that no bundle names. -/
def cartService : Service :=
  { Namespace := "shop", Name := "cart", ResourceVersion := 4, Labels := [],
    Spec := { Selector := [("app", "cart")], Ports := [80] } }

/-- A live service of `shop` that no bundle names. -/
def searchService : Service :=
  { Namespace := "shop", Name := "search", ResourceVersion := 5, Labels := [],
    Spec := { Selector := [("app", "search")], Ports := [80] } }

/-- Four live services in `shop`; the third call (the second `Delete`) is
scripted to fail. -/
def abortWorld : World :=
  { emptyWorld with
    services := [cartService, ordersService.withVersion 1, legacyService, searchService],
    version := 5, faults := [false, false, true] }

/-- A live deployment of `shop` that no bundle names. -/
def legacyDeployment : Deployment :=
  { Namespace := "shop", Name := "legacy", ResourceVersion := 5, Labels := [],
    Spec := { Replicas := 1, Image := "legacy:1" } }

/-- A live gateway of `ingress` that no bundle names. -/
def oldGateway : Gateway :=
  { Namespace := "ingress", Name := "old-gateway", ResourceVersion := 6, Labels := [],
    Spec := { Selector := [], Servers := ["*"] } }

/-- Two live services and two live deployments in `shop`, one service in
`billing`, and a stale gateway in `ingress`. -/
def cleanUpWorld : World :=
  { emptyWorld with
    services := [ordersService.withVersion 1, legacyService, billingService],
    deployments := [ordersDeployment.withVersion 4, legacyDeployment],
    gateways := [oldGateway],
    version := 6 }

/-- The namespace `shop` is stored without the injection label; no call is
scripted to fail. -/
def shopWorld : World := { emptyWorld with namespaces := [shopNamespace], version := 1 }

/-- The namespace `shop` is stored with a nil label map; no call is scripted
to fail. -/
def nilLabelWorld : World :=
  { emptyWorld with namespaces := [⟨"shop", none, 1⟩], version := 1 }

/-- Both namespaces are absent and the sixth call, the `Create` of the
service, is scripted to fail. -/
def upsertFailsWorld : World :=
  { emptyWorld with faults := [false, false, false, false, false, true] }

/-! ## Basic facts about the cluster model -/

@[simp] theorem record_objs (w : World) (c : Call) (k : Kind) : (w.record c).objs k = w.objs k := by
  cases k <;> rfl

@[simp] theorem record_namespaces (w : World) (c : Call) :
    (w.record c).namespaces = w.namespaces := rfl

@[simp] theorem record_version (w : World) (c : Call) : (w.record c).version = w.version := rfl

@[simp] theorem record_log (w : World) (c : Call) : (w.record c).log = w.log ++ [c] := rfl

@[simp] theorem record_faults (w : World) (c : Call) : (w.record c).faults = w.faults.tail := rfl

@[simp] theorem setObjs_objs (w : World) (k : Kind) (l : List (Obj k.Spec)) :
    (w.setObjs k l).objs k = l := by
  cases k <;> rfl

theorem setObjs_objs_ne (w : World) (k k2 : Kind) (l : List (Obj k.Spec)) (h : k2 ≠ k) :
    (w.setObjs k l).objs k2 = w.objs k2 := by
  cases k <;> cases k2 <;> first | rfl | exact absurd rfl h

@[simp] theorem setObjs_namespaces (w : World) (k : Kind) (l : List (Obj k.Spec)) :
    (w.setObjs k l).namespaces = w.namespaces := by
  cases k <;> rfl

@[simp] theorem setObjs_version (w : World) (k : Kind) (l : List (Obj k.Spec)) :
    (w.setObjs k l).version = w.version := by
  cases k <;> rfl

@[simp] theorem setObjs_log (w : World) (k : Kind) (l : List (Obj k.Spec)) :
    (w.setObjs k l).log = w.log := by
  cases k <;> rfl

@[simp] theorem bump_objs (w : World) (k : Kind) : w.bump.objs k = w.objs k := by
  cases k <;> rfl

@[simp] theorem bump_namespaces (w : World) : w.bump.namespaces = w.namespaces := rfl

@[simp] theorem bump_version (w : World) : w.bump.version = w.version + 1 := rfl

@[simp] theorem bump_log (w : World) : w.bump.log = w.log := rfl

@[simp] theorem bump_faults (w : World) : w.bump.faults = w.faults := rfl

@[simp] theorem setNamespaces_objs (w : World) (l : List Namespace) (k : Kind) :
    (w.setNamespaces l).objs k = w.objs k := by
  cases k <;> rfl

@[simp] theorem setNamespaces_namespaces (w : World) (l : List Namespace) :
    (w.setNamespaces l).namespaces = l := rfl

@[simp] theorem setNamespaces_version (w : World) (l : List Namespace) :
    (w.setNamespaces l).version = w.version := rfl

@[simp] theorem setNamespaces_log (w : World) (l : List Namespace) :
    (w.setNamespaces l).log = w.log := rfl

@[simp] theorem setNamespaces_faults (w : World) (l : List Namespace) :
    (w.setNamespaces l).faults = w.faults := rfl

@[simp] theorem withVersion_Namespace {σ : Type} (o : Obj σ) (v : Nat) :
    (o.withVersion v).Namespace = o.Namespace := rfl

@[simp] theorem withVersion_Name {σ : Type} (o : Obj σ) (v : Nat) :
    (o.withVersion v).Name = o.Name := rfl

@[simp] theorem withVersion_ResourceVersion {σ : Type} (o : Obj σ) (v : Nat) :
    (o.withVersion v).ResourceVersion = v := rfl

@[simp] theorem withVersion_Labels {σ : Type} (o : Obj σ) (v : Nat) :
    (o.withVersion v).Labels = o.Labels := rfl

@[simp] theorem withVersion_Spec {σ : Type} (o : Obj σ) (v : Nat) :
    (o.withVersion v).Spec = o.Spec := rfl

@[simp] theorem withVersion_withVersion {σ : Type} (o : Obj σ) (v u : Nat) :
    (o.withVersion v).withVersion u = o.withVersion u := rfl

@[simp] theorem withVersion_hasKey {σ : Type} (o : Obj σ) (v : Nat) (ns name : String) :
    (o.withVersion v).hasKey ns name = o.hasKey ns name := rfl

@[simp] theorem withSpec_Namespace {σ : Type} (o : Obj σ) (s : σ) :
    (o.withSpec s).Namespace = o.Namespace := rfl

@[simp] theorem withSpec_Name {σ : Type} (o : Obj σ) (s : σ) :
    (o.withSpec s).Name = o.Name := rfl

@[simp] theorem withSpec_ResourceVersion {σ : Type} (o : Obj σ) (s : σ) :
    (o.withSpec s).ResourceVersion = o.ResourceVersion := rfl

@[simp] theorem withSpec_Spec {σ : Type} (o : Obj σ) (s : σ) :
    (o.withSpec s).Spec = s := rfl

@[simp] theorem withSpec_hasKey {σ : Type} (o : Obj σ) (s : σ) (ns name : String) :
    (o.withSpec s).hasKey ns name = o.hasKey ns name := rfl

@[simp] theorem nsWithVersion_Name (n : Namespace) (v : Nat) : (n.withVersion v).Name = n.Name := rfl

@[simp] theorem nsWithVersion_Labels (n : Namespace) (v : Nat) :
    (n.withVersion v).Labels = n.Labels := rfl

@[simp] theorem nsWithVersion_ResourceVersion (n : Namespace) (v : Nat) :
    (n.withVersion v).ResourceVersion = v := rfl

@[simp] theorem nsWithLabels_Name (n : Namespace) (l : Option (List (String × String))) :
    (n.withLabels l).Name = n.Name := rfl

@[simp] theorem nsWithLabels_Labels (n : Namespace) (l : Option (List (String × String))) :
    (n.withLabels l).Labels = l := rfl

@[simp] theorem nsWithLabels_ResourceVersion (n : Namespace) (l : Option (List (String × String))) :
    (n.withLabels l).ResourceVersion = n.ResourceVersion := rfl

@[simp] theorem setObjs_faults (w : World) (k : Kind) (l : List (Obj k.Spec)) :
    (w.setObjs k l).faults = w.faults := by
  cases k <;> rfl

theorem reliable_faulty {w : World} (h : w.reliable) : w.faulty = false := by
  unfold World.faulty
  cases hf : w.faults with
  | nil => rfl
  | cons b bs => exact h b (by simp [hf])

theorem reliable_record {w : World} (h : w.reliable) (c : Call) : (w.record c).reliable := by
  intro b hb
  exact h b (List.mem_of_mem_tail hb)

theorem callsSucceed_faulty {w : World} {n : Nat} (h : w.callsSucceed (n + 1)) :
    w.faulty = false := by
  unfold World.faulty
  cases hf : w.faults with
  | nil => rfl
  | cons b bs => exact h b (by simp [hf])

theorem callsSucceed_record {w : World} {n : Nat} (h : w.callsSucceed (n + 1)) (c : Call) :
    (w.record c).callsSucceed n := by
  intro b hb
  apply h b
  cases hf : w.faults with
  | nil => simp [hf] at hb
  | cons x xs =>
    simp only [record_faults, hf, List.tail_cons] at hb
    simp [List.take_succ_cons, hb]

theorem reliable_callsSucceed {w : World} (h : w.reliable) (n : Nat) : w.callsSucceed n :=
  fun b hb => h b (List.mem_of_mem_take hb)

/-! ## Point lookups -/

theorem hasKey_iff {σ : Type} (o : Obj σ) (ns name : String) :
    o.hasKey ns name = true ↔ o.Namespace = ns ∧ o.Name = name := by
  simp [Obj.hasKey]

theorem find_map_replace {α : Type} (p : α → Bool) (l : List α) (live stored : α)
    (h : l.find? p = some live) (hs : p stored = true) :
    (l.map (fun x => if p x then stored else x)).find? p = some stored := by
  induction l with
  | nil => simp at h
  | cons a t ih =>
    by_cases ha : p a = true
    · simp [List.find?, ha, hs]
    · have ha2 : p a = false := by simpa using ha
      rw [List.find?_cons, ha2] at h
      simp only [List.map_cons, ha2, Bool.false_eq_true, if_false, List.find?_cons]
      exact ih h

theorem find_none_any {α : Type} (p : α → Bool) (l : List α) (h : l.find? p = none) :
    l.any p = false := by
  induction l with
  | nil => rfl
  | cons a t ih =>
    by_cases ha : p a = true
    · simp [List.find?, ha] at h
    · have ha2 : p a = false := by simpa using ha
      rw [List.find?_cons, ha2] at h
      simp [List.any_cons, ha2, ih h]

theorem find_hasKey {σ : Type} {l : List (Obj σ)} {ns name : String} {o : Obj σ}
    (h : l.find? (fun o => o.hasKey ns name) = some o) : o.Namespace = ns ∧ o.Name = name := by
  have h2 := List.find?_some h
  exact (hasKey_iff o ns name).1 h2

/-! ## The client calls when they succeed -/

theorem apiGet_found (k : Kind) (w : World) (ns name : String) (o : Obj k.Spec)
    (hf : w.faulty = false) (h : (w.objs k).find? (fun o => o.hasKey ns name) = some o) :
    apiGet k w ns name = (.ok o, w.record (.get k ns name)) := by
  simp [apiGet, hf, h]

theorem apiGet_missing (k : Kind) (w : World) (ns name : String)
    (h : (w.objs k).find? (fun o => o.hasKey ns name) = none) :
    ∃ e, apiGet k w ns name = (.error e, w.record (.get k ns name)) := by
  unfold apiGet
  cases hf : w.faulty
  · exact ⟨.notFound, by simp [h]⟩
  · exact ⟨.unavailable, by simp⟩

theorem apiUpdate_ok (k : Kind) (w : World) (o live : Obj k.Spec) (hf : w.faulty = false)
    (h : (w.objs k).find? (fun x => x.hasKey o.Namespace o.Name) = some live)
    (hv : o.ResourceVersion = live.ResourceVersion) :
    apiUpdate k w o =
      (.ok (o.withVersion (w.version + 1)),
        ((w.record (.update k o)).setObjs k ((w.objs k).map
          (fun x => if x.hasKey o.Namespace o.Name then o.withVersion (w.version + 1)
            else x))).bump) := by
  simp [apiUpdate, hf, h, hv]

theorem apiCreate_ok (k : Kind) (w : World) (o : Obj k.Spec) (hf : w.faulty = false)
    (h : (w.objs k).find? (fun x => x.hasKey o.Namespace o.Name) = none) :
    apiCreate k w o =
      (.ok (o.withVersion (w.version + 1)),
        ((w.record (.create k o)).setObjs k (w.objs k ++ [o.withVersion (w.version + 1)])).bump) := by
  have := find_none_any _ _ h
  simp [apiCreate, hf, this]

theorem find_append_new {α : Type} (p : α → Bool) (l : List α) (x : α)
    (h : l.find? p = none) (hx : p x = true) : (l ++ [x]).find? p = some x := by
  simp [List.find?_append, h, hx]

/-! ## The point mutators -/

theorem AddRoutingRule_run (w : World) (ns vsName : String) (r : HTTPRoute)
    (vs : VirtualService)
    (hfind : w.virtualServices.find? (fun o => o.hasKey ns vsName) = some vs)
    (hok : w.callsSucceed 2) :
    AddRoutingRule w ns vsName r =
      (.nil, (((w.record (.get .virtualService ns vsName)).record
        (.update .virtualService (vs.withSpec ⟨vs.Spec.Hosts, vs.Spec.Gateways, r :: vs.Spec.Http⟩))).setObjs
          .virtualService (w.virtualServices.map (fun x => if x.hasKey ns vsName then
            (vs.withSpec ⟨vs.Spec.Hosts, vs.Spec.Gateways, r :: vs.Spec.Http⟩).withVersion (w.version + 1)
            else x))).bump) := by
  have hf1 := callsSucceed_faulty hok
  have hok1 := callsSucceed_record hok (.get .virtualService ns vsName)
  have hf2 := callsSucceed_faulty hok1
  obtain ⟨hns, hnm⟩ := find_hasKey hfind
  have hget := apiGet_found .virtualService w ns vsName vs hf1 hfind
  have hupd := apiUpdate_ok .virtualService (w.record (.get .virtualService ns vsName))
    (vs.withSpec ⟨vs.Spec.Hosts, vs.Spec.Gateways, r :: vs.Spec.Http⟩) vs hf2
    (by simpa [hns, hnm] using hfind) rfl
  unfold AddRoutingRule
  rw [hget]
  simp only [hupd]
  simp [hns, hnm]

theorem shouldAddNewSubset_fresh (subsets : List Subset) (subset : Subset)
    (h : ∀ x ∈ subsets, x.Name ≠ subset.Name) : shouldAddNewSubset subsets subset = true := by
  unfold shouldAddNewSubset
  induction subsets with
  | nil => rfl
  | cons a t ih =>
    have ha : a.Name ≠ subset.Name := h a (by simp)
    simp only [List.foldl_cons, ha, if_false]
    exact ih (fun x hx => h x (by simp [hx]))

theorem foldl_flag_false (subsets : List Subset) (subset : Subset) :
    subsets.foldl (fun flag s => if s.Name = subset.Name then false else flag) false = false := by
  induction subsets with
  | nil => rfl
  | cons a t ih =>
    by_cases ha : a.Name = subset.Name
    · simp only [List.foldl_cons, ha, if_true]; exact ih
    · simp only [List.foldl_cons, ha, if_false]; exact ih

theorem shouldAddNewSubset_present (subsets : List Subset) (subset : Subset)
    (h : ∃ x ∈ subsets, x.Name = subset.Name) : shouldAddNewSubset subsets subset = false := by
  unfold shouldAddNewSubset
  induction subsets with
  | nil => simp at h
  | cons a t ih =>
    by_cases ha : a.Name = subset.Name
    · simp only [List.foldl_cons, ha, if_true]
      exact foldl_flag_false t subset
    · simp only [List.foldl_cons, ha, if_false]
      apply ih
      obtain ⟨x, hx, hn⟩ := h
      rcases List.mem_cons.1 hx with rfl | hx
      · exact absurd hn ha
      · exact ⟨x, hx, hn⟩

theorem AddSubset_run (w : World) (ns drName : String) (s : Subset) (dr : DestinationRule)
    (hfind : w.destinationRules.find? (fun o => o.hasKey ns drName) = some dr)
    (hok : w.callsSucceed 2) :
    AddSubset w ns drName s =
      (.nil, (((w.record (.get .destinationRule ns drName)).record
        (.update .destinationRule (if shouldAddNewSubset dr.Spec.Subsets s then
            dr.withSpec ⟨dr.Spec.Host, dr.Spec.Subsets ++ [s]⟩ else dr))).setObjs
          .destinationRule (w.destinationRules.map (fun x => if x.hasKey ns drName then
            (if shouldAddNewSubset dr.Spec.Subsets s then
              dr.withSpec ⟨dr.Spec.Host, dr.Spec.Subsets ++ [s]⟩ else dr).withVersion (w.version + 1)
            else x))).bump) := by
  have hf1 := callsSucceed_faulty hok
  have hok1 := callsSucceed_record hok (.get .destinationRule ns drName)
  have hf2 := callsSucceed_faulty hok1
  obtain ⟨hns, hnm⟩ := find_hasKey hfind
  have hget := apiGet_found .destinationRule w ns drName dr hf1 hfind
  have hkey : ∀ d : DestinationRule, d = (if shouldAddNewSubset dr.Spec.Subsets s then
      dr.withSpec ⟨dr.Spec.Host, dr.Spec.Subsets ++ [s]⟩ else dr) →
      d.Namespace = ns ∧ d.Name = drName ∧ d.ResourceVersion = dr.ResourceVersion := by
    intro d hd
    subst hd
    split <;> simp [hns, hnm]
  obtain ⟨h1, h2, h3⟩ := hkey _ rfl
  have hupd := apiUpdate_ok .destinationRule (w.record (.get .destinationRule ns drName))
    (if shouldAddNewSubset dr.Spec.Subsets s then
      dr.withSpec ⟨dr.Spec.Host, dr.Spec.Subsets ++ [s]⟩ else dr) dr hf2
    (by rw [h1, h2]; simpa using hfind) h3
  unfold AddSubset
  rw [hget]
  simp only [hupd]
  simp [h1, h2]

theorem AddSubset_same_name_keeps_list (w : World) (ns drName : String) (s : Subset)
    (dr : DestinationRule)
    (hfind : w.destinationRules.find? (fun o => o.hasKey ns drName) = some dr)
    (hok : w.callsSucceed 2) (hsame : ∃ x ∈ dr.Spec.Subsets, x.Name = s.Name) :
    (AddSubset w ns drName s).1 = Outcome.nil ∧
    (AddSubset w ns drName s).2.destinationRules.find? (fun o => o.hasKey ns drName) =
      some (dr.withVersion (w.version + 1)) := by
  rw [AddSubset_run w ns drName s dr hfind hok]
  refine ⟨rfl, ?_⟩
  rw [shouldAddNewSubset_present _ _ hsame]
  exact find_map_replace _ _ dr _ hfind (by simpa using List.find?_some hfind)

/-! ## The effect of upserts on a live list -/

theorem overwrite_hasKey {σ : Type} (o d : Obj σ) (ns name : String) :
    (overwrite o d).hasKey ns name = o.hasKey ns name := by
  unfold overwrite
  by_cases h : o.hasKey d.Namespace d.Name = true
  · rw [if_pos h]
    obtain ⟨h1, h2⟩ := (hasKey_iff _ _ _).1 h
    simp [Obj.hasKey, h1, h2]
  · rw [if_neg h]

theorem overwrite_of_key {σ : Type} (o d : Obj σ) (h : o.hasKey d.Namespace d.Name = true) :
    overwrite o d = d.withVersion 0 := by
  unfold overwrite; rw [if_pos h]

theorem overwrite_of_other {σ : Type} (o d : Obj σ) (h : o.hasKey d.Namespace d.Name = false) :
    overwrite o d = o := by
  unfold overwrite; rw [if_neg (by simp [h])]

theorem find_isSome_iff {α : Type} (p : α → Bool) (l : List α) :
    (∃ x, l.find? p = some x) ↔ ∃ o ∈ l, p o = true := by
  constructor
  · rintro ⟨x, hx⟩
    exact ⟨x, List.mem_of_find?_eq_some hx, List.find?_some hx⟩
  · rintro ⟨o, ho, hp⟩
    cases h : l.find? p with
    | some x => exact ⟨x, rfl⟩
    | none => exact absurd hp (by simpa using (List.find?_eq_none.1 h) o ho)

theorem upsert_present {σ : Type} (l : List (Obj σ)) (d : Obj σ)
    (h : ∃ o ∈ l, o.hasKey d.Namespace d.Name = true) :
    upsert l d 0 = l.map (fun o => overwrite o d) := by
  obtain ⟨x, hx⟩ := (find_isSome_iff _ l).2 h
  simp only [upsert, hx]
  rfl

theorem upsert_foldl_present {σ : Type} (ds : List (Obj σ)) :
    ∀ l : List (Obj σ), (∀ d ∈ ds, ∃ o ∈ l, o.hasKey d.Namespace d.Name = true) →
      ds.foldl (fun acc d => upsert acc d 0) l = l.map (fun o => ds.foldl overwrite o) := by
  induction ds with
  | nil => intro l _; simp
  | cons d t ih =>
    intro l h
    rw [List.foldl_cons, upsert_present l d (h d (by simp))]
    rw [ih]
    · simp [List.map_map, Function.comp]
    · intro d2 hd2
      obtain ⟨o, ho, hk⟩ := h d2 (by simp [hd2])
      exact ⟨overwrite o d, List.mem_map_of_mem _ ho, by rw [overwrite_hasKey]; exact hk⟩

theorem mem_upsert {σ : Type} (l : List (Obj σ)) (d o : Obj σ) (v : Nat) (h : o ∈ upsert l d v) :
    (o.hasKey d.Namespace d.Name = true ∧ o = d.withVersion v) ∨
      (o.hasKey d.Namespace d.Name = false ∧ o ∈ l) := by
  unfold upsert at h
  cases hf : l.find? (fun x => x.hasKey d.Namespace d.Name) with
  | none =>
    rw [hf] at h
    rcases List.mem_append.1 h with h1 | h1
    · right
      refine ⟨?_, h1⟩
      simpa using (List.find?_eq_none.1 hf) o h1
    · left
      have : o = d.withVersion v := by simpa using h1
      subst this
      exact ⟨by simp [Obj.hasKey], rfl⟩
  | some x =>
    rw [hf] at h
    obtain ⟨y, hy, hyo⟩ := List.mem_map.1 h
    by_cases hk : y.hasKey d.Namespace d.Name = true
    · left
      rw [if_pos hk] at hyo
      subst hyo
      exact ⟨by simp [Obj.hasKey], rfl⟩
    · right
      rw [if_neg hk] at hyo
      subst hyo
      exact ⟨by simpa using hk, hy⟩

theorem upsert_has_key {σ : Type} (l : List (Obj σ)) (d : Obj σ) (v : Nat) :
    ∃ o ∈ upsert l d v, o.hasKey d.Namespace d.Name = true := by
  unfold upsert
  cases hf : l.find? (fun x => x.hasKey d.Namespace d.Name) with
  | none => exact ⟨d.withVersion v, by simp, by simp [Obj.hasKey]⟩
  | some x =>
    refine ⟨d.withVersion v, ?_, by simp [Obj.hasKey]⟩
    refine List.mem_map.2 ⟨x, List.mem_of_find?_eq_some hf, ?_⟩
    rw [if_pos (List.find?_some hf)]

theorem upsert_keeps_key {σ : Type} (l : List (Obj σ)) (d : Obj σ) (v : Nat) (ns name : String)
    (h : ∃ o ∈ l, o.hasKey ns name = true) : ∃ o ∈ upsert l d v, o.hasKey ns name = true := by
  obtain ⟨o, ho, hk⟩ := h
  unfold upsert
  cases hf : l.find? (fun x => x.hasKey d.Namespace d.Name) with
  | none => exact ⟨o, by simp [ho], hk⟩
  | some x =>
    by_cases hd : o.hasKey d.Namespace d.Name = true
    · refine ⟨d.withVersion v, List.mem_map.2 ⟨o, ho, by rw [if_pos hd]⟩, ?_⟩
      obtain ⟨h1, h2⟩ := (hasKey_iff _ _ _).1 hd
      obtain ⟨h3, h4⟩ := (hasKey_iff _ _ _).1 hk
      simp [Obj.hasKey, ← h1, ← h2, h3, h4]
    · exact ⟨o, List.mem_map.2 ⟨o, ho, by rw [if_neg hd]⟩, hk⟩

theorem foldl_overwrite_hasKey {σ : Type} (ds : List (Obj σ)) :
    ∀ (o : Obj σ) (ns name : String),
      (ds.foldl overwrite o).hasKey ns name = o.hasKey ns name := by
  induction ds with
  | nil => intro o ns name; rfl
  | cons d t ih =>
    intro o ns name
    rw [List.foldl_cons, ih, overwrite_hasKey]

theorem upsert_foldl_settled {σ : Type} (ds : List (Obj σ)) (l : List (Obj σ)) :
    (∀ d ∈ ds, ∃ o ∈ ds.foldl (fun acc d => upsert acc d 0) l,
        o.hasKey d.Namespace d.Name = true) ∧
      ∀ o ∈ ds.foldl (fun acc d => upsert acc d 0) l, ds.foldl overwrite o = o := by
  induction ds using List.reverseRecOn with
  | nil => simp
  | append_singleton t d ih =>
    obtain ⟨ih1, ih2⟩ := ih
    rw [List.foldl_append, List.foldl_cons, List.foldl_nil]
    constructor
    · intro d2 hd2
      rcases List.mem_append.1 hd2 with h | h
      · exact upsert_keeps_key _ d 0 _ _ (ih1 d2 h)
      · have : d2 = d := by simpa using h
        subst this
        exact upsert_has_key _ _ _
    · intro o ho
      rw [List.foldl_append, List.foldl_cons, List.foldl_nil]
      rcases mem_upsert _ d o 0 ho with ⟨hk, ho2⟩ | ⟨hk, ho2⟩
      · rw [overwrite_of_key _ _ (by rw [foldl_overwrite_hasKey]; exact hk), ho2]
      · rw [ih2 o ho2]
        exact overwrite_of_other _ _ hk

theorem upsert_foldl_idempotent {σ : Type} (ds : List (Obj σ)) (l : List (Obj σ)) :
    ds.foldl (fun acc d => upsert acc d 0) (ds.foldl (fun acc d => upsert acc d 0) l) =
      ds.foldl (fun acc d => upsert acc d 0) l := by
  obtain ⟨h1, h2⟩ := upsert_foldl_settled ds l
  rw [upsert_foldl_present ds _ h1]
  conv_rhs => rw [← List.map_id (ds.foldl (fun acc d => upsert acc d 0) l)]
  exact List.map_congr_left (fun o ho => by simpa using h2 o ho)

theorem eraseTokens_upsert {σ : Type} (l : List (Obj σ)) (d : Obj σ) (v : Nat) :
    eraseTokens (upsert l d v) = upsert (eraseTokens l) d 0 := by
  unfold upsert eraseTokens
  rw [List.find?_map]
  have hc : ((fun x : Obj σ => x.hasKey d.Namespace d.Name) ∘ fun o => o.withVersion 0) =
      fun x : Obj σ => x.hasKey d.Namespace d.Name := by
    funext x; simp
  rw [hc]
  cases hf : l.find? (fun x => x.hasKey d.Namespace d.Name) with
  | none => simp
  | some x =>
    simp only [Option.map_some', List.map_map]
    apply List.map_congr_left
    intro o _
    simp only [Function.comp]
    by_cases hk : o.hasKey d.Namespace d.Name = true <;> simp [hk]

theorem upsert_erased_desired {σ : Type} (l : List (Obj σ)) (d d2 : Obj σ)
    (h : d2.withVersion 0 = d.withVersion 0) : upsert l d2 0 = upsert l d 0 := by
  have hn : d2.Namespace = d.Namespace := by
    have h1 := congrArg Obj.Namespace h
    simpa using h1
  have hm : d2.Name = d.Name := by
    have h1 := congrArg Obj.Name h
    simpa using h1
  unfold upsert
  rw [hn, hm, h]

/-! ## The upsert routine -/

theorem createOrUpdate_absent (k : Kind) (w : World) (d : Obj k.Spec)
    (hnone : (w.objs k).find? (fun x => x.hasKey d.Namespace d.Name) = none)
    (hwrite : (w.record (.get k d.Namespace d.Name)).faulty = false) :
    createOrUpdate k w d =
      (.nil, d, (((w.record (.get k d.Namespace d.Name)).record (.create k d)).setObjs k
        (w.objs k ++ [d.withVersion (w.version + 1)])).bump) := by
  obtain ⟨e, he⟩ := apiGet_missing k w d.Namespace d.Name hnone
  have hc := apiCreate_ok k (w.record (.get k d.Namespace d.Name)) d hwrite
    (by simpa using hnone)
  unfold createOrUpdate
  rw [he]
  simp only [hc]
  simp

theorem createOrUpdate_present (k : Kind) (w : World) (d live : Obj k.Spec)
    (hfind : (w.objs k).find? (fun x => x.hasKey d.Namespace d.Name) = some live)
    (hread : w.faulty = false)
    (hwrite : (w.record (.get k d.Namespace d.Name)).faulty = false) :
    createOrUpdate k w d =
      (.nil, d.withVersion live.ResourceVersion,
        (((w.record (.get k d.Namespace d.Name)).record
          (.update k (d.withVersion live.ResourceVersion))).setObjs k
            ((w.objs k).map (fun x => if x.hasKey d.Namespace d.Name then
              d.withVersion (w.version + 1) else x))).bump) := by
  have hg := apiGet_found k w d.Namespace d.Name live hread hfind
  have hu := apiUpdate_ok k (w.record (.get k d.Namespace d.Name))
    (d.withVersion live.ResourceVersion) live hwrite (by simpa using hfind) rfl
  unfold createOrUpdate
  rw [hg]
  simp only [hu]
  simp

theorem createOrUpdate_reliable (k : Kind) (w : World) (d : Obj k.Spec) (h : w.reliable) :
    ∃ (c : Call) (d2 : Obj k.Spec),
      createOrUpdate k w d =
        (.nil, d2, (((w.record (.get k d.Namespace d.Name)).record c).setObjs k
          (upsert (w.objs k) d (w.version + 1))).bump) ∧
      c.isNamespaceCall = false ∧ d2.withVersion 0 = d.withVersion 0 := by
  have hread := reliable_faulty h
  have hwrite := reliable_faulty (reliable_record h (.get k d.Namespace d.Name))
  cases hf : (w.objs k).find? (fun x => x.hasKey d.Namespace d.Name) with
  | none =>
    refine ⟨.create k d, d, ?_, rfl, rfl⟩
    rw [createOrUpdate_absent k w d hf hwrite]
    simp [upsert, hf]
  | some live =>
    refine ⟨.update k (d.withVersion live.ResourceVersion), d.withVersion live.ResourceVersion,
      ?_, rfl, rfl⟩
    rw [createOrUpdate_present k w d live hf hread hwrite]
    simp [upsert, hf]

theorem createOrUpdate_log (k : Kind) (w : World) (d : Obj k.Spec) :
    ∃ c : Call, (createOrUpdate k w d).2.2.log = w.log ++ [.get k d.Namespace d.Name, c] ∧
      c.isNamespaceCall = false := by
  unfold createOrUpdate
  rcases hg : apiGet k w d.Namespace d.Name with ⟨r, w1⟩
  have hw1 : w1 = w.record (.get k d.Namespace d.Name) := by
    have := congrArg Prod.snd hg
    unfold apiGet at this
    simp only at this
    split at this <;> first | exact this.symm | (split at this <;> exact this.symm)
  subst hw1
  cases r with
  | error e =>
    refine ⟨.create k d, ?_, rfl⟩
    simp only
    have hl : (apiCreate k (w.record (.get k d.Namespace d.Name)) d).2.log =
        w.log ++ [.get k d.Namespace d.Name, .create k d] := by
      unfold apiCreate
      simp only
      split
      · simp
      · split <;> simp
    rcases hc : apiCreate k (w.record (.get k d.Namespace d.Name)) d with ⟨r2, w2⟩
    rw [hc] at hl
    cases r2 <;> exact hl
  | ok existing =>
    refine ⟨.update k (d.withVersion existing.ResourceVersion), ?_, rfl⟩
    simp only
    have hl : (apiUpdate k (w.record (.get k d.Namespace d.Name))
        (d.withVersion existing.ResourceVersion)).2.log =
        w.log ++ [.get k d.Namespace d.Name, .update k (d.withVersion existing.ResourceVersion)] := by
      unfold apiUpdate
      simp only
      split
      · simp
      · split
        · simp
        · split <;> simp
    rcases hc : apiUpdate k (w.record (.get k d.Namespace d.Name))
      (d.withVersion existing.ResourceVersion) with ⟨r2, w2⟩
    rw [hc] at hl
    cases r2 <;> exact hl

/-! ## The namespace ensurer -/

theorem mapGet_mapSet (labels : List (String × String)) (key v : String) :
    mapGet (some (mapSet labels key v)) key = some v := by
  unfold mapGet
  simp only
  induction labels with
  | nil => simp [mapSet, List.lookup]
  | cons a t ih =>
    obtain ⟨k, x⟩ := a
    unfold mapSet
    by_cases h : k = key
    · subst h
      simp [List.lookup]
    · rw [if_neg h]
      have h2 : (key == k) = false := by
        simp only [beq_eq_false_iff_ne, ne_eq]
        exact fun e => h e.symm
      simp only [List.lookup, h2]
      exact ih

theorem reliable_of_faults {w w2 : World} (h : w.reliable) (hf : w2.faults = w.faults) :
    w2.reliable := by
  unfold World.reliable
  rw [hf]
  exact h

theorem apiGetNamespace_found (w : World) (name : String) (x : Namespace)
    (hf : w.faulty = false) (h : w.namespaces.find? (fun y => decide (y.Name = name)) = some x) :
    apiGetNamespace w name = (.ok x, w.record (.getNamespace name)) := by
  simp [apiGetNamespace, hf, h]

theorem apiGetNamespace_missing (w : World) (name : String)
    (hf : w.faulty = false) (h : w.namespaces.find? (fun y => decide (y.Name = name)) = none) :
    apiGetNamespace w name = (.error .notFound, w.record (.getNamespace name)) := by
  simp [apiGetNamespace, hf, h]

theorem ensureNamespace_of_labelled (w : World) (name : String) (h : w.reliable)
    (hl : labelled name w.namespaces) :
    ensureNamespace w name = (.nil, w.record (.getNamespace name)) := by
  obtain ⟨x, hx, hlab⟩ := hl
  unfold ensureNamespace
  rw [apiGetNamespace_found w name x (reliable_faulty h) hx]
  simp [hlab]

theorem ensureNamespace_of_nil_labels (w : World) (name : String) (x : Namespace)
    (h : w.reliable) (hx : w.namespaces.find? (fun y => decide (y.Name = name)) = some x)
    (hnil : x.Labels = none) :
    ensureNamespace w name = (.panicked, w.record (.getNamespace name)) := by
  unfold ensureNamespace
  rw [apiGetNamespace_found w name x (reliable_faulty h) hx]
  simp [hnil, mapGet]

theorem find_name_map (nss : List Namespace) (f : Namespace → Namespace)
    (hf : ∀ y, (f y).Name = y.Name) (m : String) :
    (nss.map f).find? (fun y => decide (y.Name = m)) =
      (nss.find? (fun y => decide (y.Name = m))).map f := by
  rw [List.find?_map]
  have hc : ((fun y : Namespace => decide (y.Name = m)) ∘ f) = fun y => decide (y.Name = m) := by
    funext y
    simp [hf]
  rw [hc]

theorem ensureNamespace_reliable (w : World) (name : String) (h : w.reliable) :
    (ensureNamespace w name = (.panicked, w.record (.getNamespace name)) ∧
        ∃ x, w.namespaces.find? (fun y => decide (y.Name = name)) = some x ∧ x.Labels = none) ∨
      (ensureNamespace w name = (.nil, w.record (.getNamespace name)) ∧
        labelled name w.namespaces) ∨
      ∃ (c : Call) (l : List Namespace),
        ensureNamespace w name =
          (.nil, (((w.record (.getNamespace name)).record c).setNamespaces l).bump) ∧
        labelled name l ∧ (∀ m, labelled m w.namespaces → labelled m l) := by
  have hread := reliable_faulty h
  have hwrite := reliable_faulty (reliable_record h (.getNamespace name))
  rcases Option.eq_none_or_eq_some (w.namespaces.find? (fun y => decide (y.Name = name)))
    with hx | ⟨x, hx⟩
  · right; right
    refine ⟨.createNamespace ⟨name, some [(istioLabel, enabledIstioValue)], 0⟩,
      w.namespaces ++ [⟨name, some [(istioLabel, enabledIstioValue)], w.version + 1⟩], ?_, ?_, ?_⟩
    · unfold ensureNamespace
      rw [apiGetNamespace_missing w name hread hx]
      have hany : w.namespaces.any (fun y => decide (y.Name = name)) = false :=
        find_none_any _ _ hx
      simp [apiCreateNamespace, hwrite, hany, Namespace.withVersion]
    · refine ⟨⟨name, some [(istioLabel, enabledIstioValue)], w.version + 1⟩, ?_, ?_⟩
      · simp [List.find?_append, hx]
      · simp [mapGet, List.lookup]
    · rintro m ⟨z, hz, hlab⟩
      exact ⟨z, by simp [List.find?_append, hz], hlab⟩
  · by_cases hlab : mapGet x.Labels istioLabel = some enabledIstioValue
    · right; left
      exact ⟨ensureNamespace_of_labelled w name h ⟨x, hx, hlab⟩, ⟨x, hx, hlab⟩⟩
    · cases hL : x.Labels with
      | none =>
        left
        exact ⟨ensureNamespace_of_nil_labels w name x h hx hL, ⟨x, hx, hL⟩⟩
      | some labels =>
        right; right
        have hname : x.Name = name := by simpa using List.find?_some hx
        have hlab2 : ¬ mapGet (some labels) istioLabel = some enabledIstioValue := by
          rw [← hL]; exact hlab
        let u : Namespace := ⟨x.Name, some (mapSet labels istioLabel enabledIstioValue), w.version + 1⟩
        have hu : mapGet u.Labels istioLabel = some enabledIstioValue := mapGet_mapSet _ _ _
        let f : Namespace → Namespace := fun y => if y.Name = x.Name then u else y
        have hfname : ∀ y, (f y).Name = y.Name := by
          intro y
          by_cases hy : y.Name = x.Name
          · simp [f, hy, u]
          · simp [f, hy]
        refine ⟨.updateNamespace (x.withLabels (some (mapSet labels istioLabel enabledIstioValue))),
          w.namespaces.map f, ?_, ?_, ?_⟩
        · unfold ensureNamespace
          rw [apiGetNamespace_found w name x hread hx]
          have hx2 : w.namespaces.find? (fun y => decide (y.Name = x.Name)) = some x := by
            rw [hname]; exact hx
          simp [hlab2, hL, apiUpdateNamespace, hwrite, hx2, Namespace.withVersion,
            Namespace.withLabels, f, u]
        · refine ⟨u, ?_, hu⟩
          rw [find_name_map _ f hfname, hx]
          simp [f]
        · rintro m ⟨z, hz, hzlab⟩
          refine ⟨f z, ?_, ?_⟩
          · rw [find_name_map _ f hfname, hz]
            rfl
          · by_cases hzn : z.Name = x.Name
            · simp only [f, hzn, if_true]
              exact hu
            · simp only [f, hzn, if_false]
              exact hzlab

/-! ## The namespace loop -/

theorem forRange_cons_nil {α : Type} (body : World → α → Outcome × World) (w w1 : World)
    (x : α) (xs : List α) (h : body w x = (.nil, w1)) :
    forRange body w (x :: xs) = forRange body w1 xs := by
  simp [forRange, h]

theorem forRange_cons_stop {α : Type} (body : World → α → Outcome × World) (w w1 : World)
    (r : Outcome) (x : α) (xs : List α) (h : body w x = (r, w1)) (hr : r ≠ .nil) :
    forRange body w (x :: xs) = (r, w1) := by
  cases r with
  | nil => exact absurd rfl hr
  | error e => simp [forRange, h]
  | panicked => simp [forRange, h]

theorem ensureNamespace_step (w : World) (name : String) (h : w.reliable) :
    (ensureNamespace w name = (.panicked, w.record (.getNamespace name)) ∧
        ∃ x, w.namespaces.find? (fun y => decide (y.Name = name)) = some x ∧ x.Labels = none) ∨
      ∃ w1, ensureNamespace w name = (.nil, w1) ∧ w1.reliable ∧ (∀ k, w1.objs k = w.objs k) ∧
        labelled name w1.namespaces ∧
        (∀ m, labelled m w.namespaces → labelled m w1.namespaces) := by
  rcases ensureNamespace_reliable w name h with hA | ⟨hB, hl⟩ | ⟨c, l, hC, hl, hp⟩
  · exact Or.inl hA
  · exact Or.inr ⟨_, hB, reliable_record h _, fun k => by simp, hl, fun m hm => hm⟩
  · refine Or.inr ⟨_, hC, ?_, fun k => by simp, hl, hp⟩
    exact reliable_of_faults (reliable_record (reliable_record h (.getNamespace name)) c) rfl

theorem ensureLoop_reliable (names : List String) :
    ∀ w : World, w.reliable →
      ∃ (r : Outcome) (w1 : World), forRange ensureNamespace w names = (r, w1) ∧ w1.reliable ∧
        (∀ k, w1.objs k = w.objs k) ∧
        (∀ m, labelled m w.namespaces → labelled m w1.namespaces) ∧
        (r = .nil → ∀ m ∈ names, labelled m w1.namespaces) ∧
        ∀ w2 : World, w2.reliable → w2.namespaces = w1.namespaces →
          ∃ w3, forRange ensureNamespace w2 names = (r, w3) ∧ w3.reliable ∧
            w3.namespaces = w2.namespaces ∧ ∀ k, w3.objs k = w2.objs k := by
  induction names with
  | nil =>
    intro w h
    exact ⟨.nil, w, rfl, h, fun _ => rfl, fun _ hm => hm, fun _ m hm => by simp at hm,
      fun w2 h2 _ => ⟨w2, rfl, h2, rfl, fun _ => rfl⟩⟩
  | cons n rest ih =>
    intro w h
    rcases ensureNamespace_step w n h with ⟨hA, x, hx, hnil⟩ | ⟨w1, hB, hrel, hobjs, hl, hp⟩
    · refine ⟨.panicked, w.record (.getNamespace n),
        forRange_cons_stop _ _ _ _ _ _ hA (by simp), reliable_record h _, fun k => by simp,
        fun m hm => hm, fun hr => by simp at hr, ?_⟩
      intro w2 h2 hns
      have hx2 : w2.namespaces.find? (fun y => decide (y.Name = n)) = some x := by
        rw [hns]; exact hx
      exact ⟨w2.record (.getNamespace n),
        forRange_cons_stop _ _ _ _ _ _ (ensureNamespace_of_nil_labels w2 n x h2 hx2 hnil) (by simp),
        reliable_record h2 _, rfl, fun k => by simp⟩
    · obtain ⟨r, w', hrun, hrel', hobjs', hp', hall, hre⟩ := ih w1 hrel
      refine ⟨r, w', ?_, hrel', fun k => (hobjs' k).trans (hobjs k),
        fun m hm => hp' m (hp m hm), ?_, ?_⟩
      · rw [forRange_cons_nil _ _ _ _ _ hB]; exact hrun
      · intro hr m hm
        rcases List.mem_cons.1 hm with rfl | hm
        · exact hp' _ hl
        · exact hall hr m hm
      · intro w2 h2 hns
        have hl2 : labelled n w2.namespaces := by rw [hns]; exact hp' n hl
        obtain ⟨w3, hrun3, hrel3, hns3, hobjs3⟩ :=
          hre (w2.record (.getNamespace n)) (reliable_record h2 _) (by simpa using hns)
        refine ⟨w3, ?_, hrel3, by simpa using hns3, fun k => by simpa using hobjs3 k⟩
        rw [forRange_cons_nil _ _ _ _ _ (ensureNamespace_of_labelled w2 n h2 hl2)]
        exact hrun3

theorem apiGetNamespace_world (w : World) (name : String) :
    (apiGetNamespace w name).2 = w.record (.getNamespace name) := by
  unfold apiGetNamespace
  simp only
  split
  · rfl
  · split <;> rfl

theorem ensureNamespace_log (w : World) (name : String) :
    ∃ rest : List Call, (ensureNamespace w name).2.log = w.log ++ (.getNamespace name :: rest) ∧
      (∀ c ∈ rest, c.isNamespaceCall = true) ∧ ensuredNamespaces rest = [] := by
  unfold ensureNamespace
  have hw := apiGetNamespace_world w name
  rcases hg : apiGetNamespace w name with ⟨r, w1⟩
  rw [hg] at hw
  simp only at hw
  subst hw
  cases r with
  | ok existing =>
    simp only
    split
    · cases hL : existing.Labels with
      | none => exact ⟨[], by simp, by simp, rfl⟩
      | some labels =>
        refine ⟨[.updateNamespace (existing.withLabels
          (some (mapSet labels istioLabel enabledIstioValue)))], ?_, ?_, rfl⟩
        · simp only
          unfold apiUpdateNamespace
          simp only
          split
          · simp
          · split
            · simp
            · split <;> simp
        · intro c hc
          have : c = _ := List.mem_singleton.1 hc
          subst this
          rfl
    · exact ⟨[], by simp, by simp, rfl⟩
  | error e =>
    refine ⟨[.createNamespace ⟨name, some [(istioLabel, enabledIstioValue)], 0⟩], ?_, ?_, rfl⟩
    · simp only
      have hl : (apiCreateNamespace (w.record (.getNamespace name))
          ⟨name, some [(istioLabel, enabledIstioValue)], 0⟩).2.log =
          w.log ++ [.getNamespace name,
            .createNamespace ⟨name, some [(istioLabel, enabledIstioValue)], 0⟩] := by
        unfold apiCreateNamespace
        simp only
        split
        · simp
        · split <;> simp
      rcases hc : apiCreateNamespace (w.record (.getNamespace name))
        ⟨name, some [(istioLabel, enabledIstioValue)], 0⟩ with ⟨r2, w2⟩
      rw [hc] at hl
      cases r2 <;> exact hl
    · intro c hc
      have : c = _ := List.mem_singleton.1 hc
      subst this
      rfl

/-! ## Call logs of the loops -/

theorem ensureLoop_log (names : List String) :
    ∀ w : World, ∃ calls : List Call,
      (forRange ensureNamespace w names).2.log = w.log ++ calls ∧
      (∀ c ∈ calls, c.isNamespaceCall = true) ∧
      ((forRange ensureNamespace w names).1 = .nil → ensuredNamespaces calls = names) := by
  induction names with
  | nil => intro w; exact ⟨[], by simp [forRange], by simp, fun _ => rfl⟩
  | cons n rest ih =>
    intro w
    obtain ⟨tl, hlog, hns, hens⟩ := ensureNamespace_log w n
    rcases hb : ensureNamespace w n with ⟨r, w1⟩
    rw [hb] at hlog
    simp only at hlog
    by_cases hr : r = .nil
    · subst hr
      rw [forRange_cons_nil _ _ _ _ _ hb]
      obtain ⟨calls, hlog2, hns2, hens2⟩ := ih w1
      refine ⟨(.getNamespace n :: tl) ++ calls, ?_, ?_, ?_⟩
      · rw [hlog2, hlog, List.append_assoc]
      · intro c hc
        rcases List.mem_append.1 hc with h1 | h1
        · rcases List.mem_cons.1 h1 with rfl | h2
          · rfl
          · exact hns c h2
        · exact hns2 c h1
      · intro hnil
        have h3 := hens2 hnil
        unfold ensuredNamespaces at h3 hens ⊢
        rw [List.filterMap_append, List.filterMap_cons, h3, hens]
        rfl
    · rw [forRange_cons_stop _ _ _ _ _ _ hb hr]
      refine ⟨.getNamespace n :: tl, hlog, ?_, fun h => absurd h hr⟩
      intro c hc
      rcases List.mem_cons.1 hc with rfl | h2
      · rfl
      · exact hns c h2

theorem forRange_log {α : Type} (body : World → α → Outcome × World) (q : Call → Bool)
    (hb : ∀ w x, ∃ calls : List Call, (body w x).2.log = w.log ++ calls ∧
      ∀ c ∈ calls, q c = true) (l : List α) :
    ∀ w : World, ∃ calls : List Call, (forRange body w l).2.log = w.log ++ calls ∧
      ∀ c ∈ calls, q c = true := by
  induction l with
  | nil => intro w; exact ⟨[], by simp [forRange], by simp⟩
  | cons x xs ih =>
    intro w
    obtain ⟨c1, hlog, hq⟩ := hb w x
    rcases hbx : body w x with ⟨r, w1⟩
    rw [hbx] at hlog
    simp only at hlog
    by_cases hr : r = .nil
    · subst hr
      rw [forRange_cons_nil _ _ _ _ _ hbx]
      obtain ⟨c2, hlog2, hq2⟩ := ih w1
      refine ⟨c1 ++ c2, by rw [hlog2, hlog, List.append_assoc], ?_⟩
      intro c hc
      rcases List.mem_append.1 hc with h1 | h1
      · exact hq c h1
      · exact hq2 c h1
    · rw [forRange_cons_stop _ _ _ _ _ _ hbx hr]
      exact ⟨c1, hlog, hq⟩

theorem upsertCopy_log (k : Kind) (w : World) (d : Obj k.Spec) :
    ∃ calls : List Call, (upsertCopy k w d).2.log = w.log ++ calls ∧
      ∀ c ∈ calls, (!c.isNamespaceCall) = true := by
  obtain ⟨c, hlog, hc⟩ := createOrUpdate_log k w d
  refine ⟨[.get k d.Namespace d.Name, c], hlog, ?_⟩
  intro c2 hc2
  rcases List.mem_cons.1 hc2 with rfl | h2
  · rfl
  · have : c2 = c := List.mem_singleton.1 h2
    subst this
    simp [hc]

theorem applyUpserts_log (w : World) (services : List Service) (deployments : List Deployment)
    (virtualServices : List VirtualService) (destinationRules : List DestinationRule)
    (gateway : Gateway) :
    ∃ calls : List Call,
      (applyUpserts w services deployments virtualServices destinationRules gateway).2.2.log =
        w.log ++ calls ∧ ∀ c ∈ calls, (!c.isNamespaceCall) = true := by
  have glue : ∀ (w0 w1 w2 : World) (c1 : List Call),
      w1.log = w0.log ++ c1 → (∀ c ∈ c1, (!c.isNamespaceCall) = true) →
      (∃ c2 : List Call, w2.log = w1.log ++ c2 ∧ ∀ c ∈ c2, (!c.isNamespaceCall) = true) →
      ∃ c3 : List Call, w2.log = w0.log ++ c3 ∧ ∀ c ∈ c3, (!c.isNamespaceCall) = true := by
    intro w0 w1 w2 c1 h1 hq1 ⟨c2, h2, hq2⟩
    refine ⟨c1 ++ c2, by rw [h2, h1, List.append_assoc], ?_⟩
    intro c hc
    rcases List.mem_append.1 hc with h | h
    · exact hq1 c h
    · exact hq2 c h
  unfold applyUpserts
  obtain ⟨c1, h1, q1⟩ := forRange_log (upsertCopy .service) _ (upsertCopy_log .service) services w
  rcases hs : forRange (upsertCopy .service) w services with ⟨r1, w1⟩
  rw [hs] at h1
  cases r1 with
  | nil =>
    simp only
    obtain ⟨c2, h2, q2⟩ :=
      forRange_log (upsertCopy .deployment) _ (upsertCopy_log .deployment) deployments w1
    rcases hd : forRange (upsertCopy .deployment) w1 deployments with ⟨r2, w2⟩
    rw [hd] at h2
    apply glue w w1 _ c1 h1 q1
    cases r2 with
    | nil =>
      simp only
      obtain ⟨c3, h3, q3⟩ := forRange_log (upsertCopy .virtualService) _
        (upsertCopy_log .virtualService) virtualServices w2
      rcases hv : forRange (upsertCopy .virtualService) w2 virtualServices with ⟨r3, w3⟩
      rw [hv] at h3
      apply glue w1 w2 _ c2 h2 q2
      cases r3 with
      | nil =>
        simp only
        obtain ⟨c4, h4, q4⟩ := forRange_log (upsertCopy .destinationRule) _
          (upsertCopy_log .destinationRule) destinationRules w3
        rcases hr : forRange (upsertCopy .destinationRule) w3 destinationRules with ⟨r4, w4⟩
        rw [hr] at h4
        apply glue w2 w3 _ c3 h3 q3
        cases r4 with
        | nil =>
          simp only
          apply glue w3 w4 _ c4 h4 q4
          exact upsertCopy_log .gateway w4 gateway
        | error e => exact ⟨c4, h4, q4⟩
        | panicked => exact ⟨c4, h4, q4⟩
      | error e => exact ⟨c3, h3, q3⟩
      | panicked => exact ⟨c3, h3, q3⟩
    | error e => exact ⟨c2, h2, q2⟩
    | panicked => exact ⟨c2, h2, q2⟩
  | error e => exact ⟨c1, h1, q1⟩
  | panicked => exact ⟨c1, h1, q1⟩

/-! ## Namespaces of a full bundle -/

theorem uniq_foldl_nodup {α : Type} [DecidableEq α] (l : List α) :
    ∀ acc : List α, acc.Nodup →
      (l.foldl (fun result item => if item ∈ result then result else result ++ [item]) acc).Nodup := by
  induction l with
  | nil => intro acc h; exact h
  | cons x xs ih =>
    intro acc h
    rw [List.foldl_cons]
    apply ih
    by_cases hx : x ∈ acc
    · rw [if_pos hx]; exact h
    · rw [if_neg hx]
      exact List.Nodup.append h (List.nodup_singleton x) (by simpa using hx)

theorem uniq_foldl_mem {α : Type} [DecidableEq α] (l : List α) :
    ∀ (acc : List α) (a : α),
      a ∈ l.foldl (fun result item => if item ∈ result then result else result ++ [item]) acc ↔
        a ∈ acc ∨ a ∈ l := by
  induction l with
  | nil => intro acc a; simp
  | cons x xs ih =>
    intro acc a
    rw [List.foldl_cons, ih]
    by_cases hx : x ∈ acc
    · rw [if_pos hx]
      constructor
      · rintro (h | h)
        · exact Or.inl h
        · exact Or.inr (List.mem_cons_of_mem _ h)
      · rintro (h | h)
        · exact Or.inl h
        · rcases List.mem_cons.1 h with rfl | h
          · exact Or.inl hx
          · exact Or.inr h
    · rw [if_neg hx]
      simp only [List.mem_append, List.mem_singleton, List.mem_cons]
      tauto

theorem Uniq_nodup {α : Type} [DecidableEq α] (l : List α) : (Uniq l).Nodup :=
  uniq_foldl_nodup l [] List.nodup_nil

theorem mem_Uniq {α : Type} [DecidableEq α] (l : List α) (a : α) : a ∈ Uniq l ↔ a ∈ l := by
  unfold Uniq
  rw [uniq_foldl_mem]
  simp

theorem mem_uniqueNamespaces (services : List Service) (deployments : List Deployment)
    (virtualServices : List VirtualService) (destinationRules : List DestinationRule)
    (gateway : Gateway) (ns : String) :
    ns ∈ uniqueNamespaces services deployments virtualServices destinationRules gateway ↔
      (∃ s ∈ services, s.Namespace = ns) ∨ (∃ d ∈ deployments, d.Namespace = ns) ∨
        (∃ v ∈ virtualServices, v.Namespace = ns) ∨
        (∃ r ∈ destinationRules, r.Namespace = ns) ∨ gateway.Namespace = ns := by
  unfold uniqueNamespaces
  rw [mem_Uniq]
  simp only [List.flatten, List.mem_append, mem_Uniq, List.mem_map, List.mem_singleton,
    List.append_nil]
  constructor
  · rintro (h | h | h | h | h)
    · exact Or.inl h
    · exact Or.inr (Or.inl h)
    · exact Or.inr (Or.inr (Or.inl h))
    · exact Or.inr (Or.inr (Or.inr (Or.inl h)))
    · exact Or.inr (Or.inr (Or.inr (Or.inr h.symm)))
  · rintro (h | h | h | h | h)
    · exact Or.inl h
    · exact Or.inr (Or.inl h)
    · exact Or.inr (Or.inr (Or.inl h))
    · exact Or.inr (Or.inr (Or.inr (Or.inl h)))
    · exact Or.inr (Or.inr (Or.inr (Or.inr h.symm)))

theorem ApplyClusterResources_full (w : World) (services : List Service)
    (deployments : List Deployment) (virtualServices : List VirtualService)
    (destinationRules : List DestinationRule) (gateway : Gateway) :
    ApplyClusterResources w (some ⟨some deployments, some destinationRules, some gateway,
        some services, some virtualServices⟩) =
      match forRange ensureNamespace w
          (uniqueNamespaces services deployments virtualServices destinationRules gateway) with
      | (.nil, w1) =>
        ((applyUpserts w1 services deployments virtualServices destinationRules gateway).1,
          some ⟨some deployments, some destinationRules,
            some (applyUpserts w1 services deployments virtualServices destinationRules
              gateway).2.1, some services, some virtualServices⟩,
          (applyUpserts w1 services deployments virtualServices destinationRules gateway).2.2)
      | (r, w1) => (r, some ⟨some deployments, some destinationRules, some gateway,
          some services, some virtualServices⟩, w1) := by
  simp only [ApplyClusterResources, isValid]
  rcases forRange ensureNamespace w
    (uniqueNamespaces services deployments virtualServices destinationRules gateway) with ⟨r, w1⟩
  cases r <;> simp

/-! ## Upsert loops on a reliable cluster -/

theorem liveSet_eq_of (w1 w2 : World) (hns : w1.namespaces = w2.namespaces)
    (h : ∀ k, eraseTokens (w1.objs k) = eraseTokens (w2.objs k)) : w1.liveSet = w2.liveSet := by
  unfold World.liveSet
  rw [hns]
  have h1 := h .service
  have h2 := h .deployment
  have h3 := h .virtualService
  have h4 := h .destinationRule
  have h5 := h .gateway
  simp only [World.objs] at h1 h2 h3 h4 h5
  rw [h1, h2, h3, h4, h5]

theorem createOrUpdate_reliable_frame (k : Kind) (w : World) (d : Obj k.Spec) (h : w.reliable) :
    ∃ (d2 : Obj k.Spec) (w1 : World), createOrUpdate k w d = (.nil, d2, w1) ∧ w1.reliable ∧
      w1.objs k = upsert (w.objs k) d (w.version + 1) ∧
      (∀ k2, k2 ≠ k → w1.objs k2 = w.objs k2) ∧ w1.namespaces = w.namespaces ∧
      d2.withVersion 0 = d.withVersion 0 := by
  obtain ⟨c, d2, hrun, _, hd2⟩ := createOrUpdate_reliable k w d h
  refine ⟨d2, _, hrun, ?_, by simp, ?_, by simp, hd2⟩
  · exact reliable_of_faults (reliable_record (reliable_record h (.get k d.Namespace d.Name)) c)
      (by simp)
  · intro k2 hk
    rw [bump_objs, setObjs_objs_ne _ _ _ _ hk]
    simp

theorem upsertLoop_reliable (k : Kind) (l : List (Obj k.Spec)) :
    ∀ w : World, w.reliable →
      ∃ w1 : World, forRange (upsertCopy k) w l = (.nil, w1) ∧ w1.reliable ∧
        eraseTokens (w1.objs k) =
          l.foldl (fun acc d => upsert acc d 0) (eraseTokens (w.objs k)) ∧
        (∀ k2, k2 ≠ k → w1.objs k2 = w.objs k2) ∧ w1.namespaces = w.namespaces := by
  induction l with
  | nil => intro w h; exact ⟨w, rfl, h, rfl, fun _ _ => rfl, rfl⟩
  | cons d t ih =>
    intro w h
    obtain ⟨d2, w1, hrun, hrel, hobjs, hframe, hns, _⟩ := createOrUpdate_reliable_frame k w d h
    obtain ⟨w2, hrun2, hrel2, hobjs2, hframe2, hns2⟩ := ih w1 hrel
    have hstep : upsertCopy k w d = (.nil, w1) := by
      unfold upsertCopy; rw [hrun]
    refine ⟨w2, ?_, hrel2, ?_, fun k2 hk => (hframe2 k2 hk).trans (hframe k2 hk),
      hns2.trans hns⟩
    · rw [forRange_cons_nil _ _ _ _ _ hstep]; exact hrun2
    · rw [hobjs2, hobjs, eraseTokens_upsert, List.foldl_cons]

/-! ## Applying a full bundle twice -/

theorem applyUpserts_reliable (w : World) (services : List Service)
    (deployments : List Deployment) (virtualServices : List VirtualService)
    (destinationRules : List DestinationRule) (gateway : Gateway) (h : w.reliable) :
    ∃ (g2 : Gateway) (w1 : World),
      applyUpserts w services deployments virtualServices destinationRules gateway =
        (.nil, g2, w1) ∧
      w1.reliable ∧ w1.namespaces = w.namespaces ∧ g2.withVersion 0 = gateway.withVersion 0 ∧
      ∀ k, eraseTokens (w1.objs k) =
        (desiredOf services deployments virtualServices destinationRules gateway k).foldl
          (fun acc d => upsert acc d 0) (eraseTokens (w.objs k)) := by
  obtain ⟨w1, r1, hrel1, ho1, hf1, hn1⟩ := upsertLoop_reliable .service services w h
  obtain ⟨w2, r2, hrel2, ho2, hf2, hn2⟩ := upsertLoop_reliable .deployment deployments w1 hrel1
  obtain ⟨w3, r3, hrel3, ho3, hf3, hn3⟩ :=
    upsertLoop_reliable .virtualService virtualServices w2 hrel2
  obtain ⟨w4, r4, hrel4, ho4, hf4, hn4⟩ :=
    upsertLoop_reliable .destinationRule destinationRules w3 hrel3
  obtain ⟨g2, w5, r5, hrel5, ho5, hf5, hn5, hg⟩ :=
    createOrUpdate_reliable_frame .gateway w4 gateway hrel4
  refine ⟨g2, w5, ?_, hrel5, ?_, hg, ?_⟩
  · unfold applyUpserts
    rw [r1]; simp only
    rw [r2]; simp only
    rw [r3]; simp only
    rw [r4]; simp only
    exact r5
  · rw [hn5, hn4, hn3, hn2, hn1]
  · intro k
    cases k with
    | service =>
      rw [hf5 .service (by decide), hf4 .service (by decide), hf3 .service (by decide),
        hf2 .service (by decide)]
      exact ho1
    | deployment =>
      rw [hf5 .deployment (by decide), hf4 .deployment (by decide),
        hf3 .deployment (by decide), ho2, hf1 .deployment (by decide)]
      rfl
    | virtualService =>
      rw [hf5 .virtualService (by decide), hf4 .virtualService (by decide), ho3,
        hf2 .virtualService (by decide), hf1 .virtualService (by decide)]
      rfl
    | destinationRule =>
      rw [hf5 .destinationRule (by decide), ho4, hf3 .destinationRule (by decide),
        hf2 .destinationRule (by decide), hf1 .destinationRule (by decide)]
      rfl
    | gateway =>
      rw [ho5, eraseTokens_upsert, hf4 .gateway (by decide), hf3 .gateway (by decide),
        hf2 .gateway (by decide), hf1 .gateway (by decide)]
      rfl

theorem desiredOf_foldl_erased (services : List Service) (deployments : List Deployment)
    (virtualServices : List VirtualService) (destinationRules : List DestinationRule)
    (g g2 : Gateway) (hg : g2.withVersion 0 = g.withVersion 0) (k : Kind)
    (l : List (Obj k.Spec)) :
    (desiredOf services deployments virtualServices destinationRules g2 k).foldl
        (fun acc d => upsert acc d 0) l =
      (desiredOf services deployments virtualServices destinationRules g k).foldl
        (fun acc d => upsert acc d 0) l := by
  cases k with
  | gateway =>
    simp only [desiredOf, List.foldl_cons, List.foldl_nil]
    exact upsert_erased_desired l g g2 hg
  | _ => rfl

theorem uniqueNamespaces_erased (services : List Service) (deployments : List Deployment)
    (virtualServices : List VirtualService) (destinationRules : List DestinationRule)
    (g g2 : Gateway) (hg : g2.withVersion 0 = g.withVersion 0) :
    uniqueNamespaces services deployments virtualServices destinationRules g2 =
      uniqueNamespaces services deployments virtualServices destinationRules g := by
  have hn : g2.Namespace = g.Namespace := by
    have h1 := congrArg Obj.Namespace hg
    simpa using h1
  unfold uniqueNamespaces
  rw [hn]

/-- Running `ApplyClusterResources` on a full bundle and then again, on the
same collections and a gateway equal to the first up to its version token,
leaves the live resource set of the first run. -/
theorem apply_full_twice (w : World) (services : List Service)
    (deployments : List Deployment) (virtualServices : List VirtualService)
    (destinationRules : List DestinationRule) (gateway : Gateway) (h : w.reliable) :
    ∃ (r : Outcome) (g1 : Gateway) (w1 : World),
      ApplyClusterResources w (some ⟨some deployments, some destinationRules, some gateway,
        some services, some virtualServices⟩) =
        (r, some ⟨some deployments, some destinationRules, some g1, some services,
          some virtualServices⟩, w1) ∧
      g1.withVersion 0 = gateway.withVersion 0 ∧ w1.reliable ∧
      ∀ g2 : Gateway, g2.withVersion 0 = gateway.withVersion 0 →
        (ApplyClusterResources w1 (some ⟨some deployments, some destinationRules, some g2,
          some services, some virtualServices⟩)).2.2.liveSet = w1.liveSet := by
  obtain ⟨r, w1, hrun, hrel1, hobjs1, _, _, hre⟩ := ensureLoop_reliable
    (uniqueNamespaces services deployments virtualServices destinationRules gateway) w h
  cases r with
  | nil =>
    obtain ⟨g1, w2, hup, hrel2, hns2, hg1, hobjs2⟩ := applyUpserts_reliable w1 services
      deployments virtualServices destinationRules gateway hrel1
    refine ⟨.nil, g1, w2, ?_, hg1, hrel2, ?_⟩
    · rw [ApplyClusterResources_full, hrun]
      simp only [hup]
    · intro g2 hg2
      obtain ⟨w3, hrun3, hrel3, hns3, hobjs3⟩ := hre w2 hrel2 hns2
      obtain ⟨g3, w4, hup4, hrel4, hns4, _, hobjs4⟩ := applyUpserts_reliable w3 services
        deployments virtualServices destinationRules g2 hrel3
      rw [ApplyClusterResources_full,
        uniqueNamespaces_erased services deployments virtualServices destinationRules gateway g2
          hg2, hrun3]
      simp only [hup4]
      apply liveSet_eq_of
      · rw [hns4, hns3]
      · intro k
        rw [hobjs4 k, desiredOf_foldl_erased _ _ _ _ gateway g2 hg2, hobjs3 k, hobjs2 k,
          upsert_foldl_idempotent]
  | error e =>
    refine ⟨.error e, gateway, w1, ?_, rfl, hrel1, ?_⟩
    · rw [ApplyClusterResources_full, hrun]
    · intro g2 hg2
      obtain ⟨w3, hrun3, hrel3, hns3, hobjs3⟩ := hre w1 hrel1 rfl
      rw [ApplyClusterResources_full,
        uniqueNamespaces_erased services deployments virtualServices destinationRules gateway g2
          hg2, hrun3]
      exact liveSet_eq_of _ _ hns3 (fun k => by rw [hobjs3 k])
  | panicked =>
    refine ⟨.panicked, gateway, w1, ?_, rfl, hrel1, ?_⟩
    · rw [ApplyClusterResources_full, hrun]
    · intro g2 hg2
      obtain ⟨w3, hrun3, hrel3, hns3, hobjs3⟩ := hre w1 hrel1 rfl
      rw [ApplyClusterResources_full,
        uniqueNamespaces_erased services deployments virtualServices destinationRules gateway g2
          hg2, hrun3]
      exact liveSet_eq_of _ _ hns3 (fun k => by rw [hobjs3 k])

/-! ## The pruner -/

theorem find_name_isSome {σ : Type} (toKeep : List (Obj σ)) (n : String) :
    (toKeep.find? (fun item => decide (item.Name = n))).isSome =
      decide (n ∈ toKeep.map (fun item => item.Name)) := by
  induction toKeep with
  | nil => simp
  | cons a t ih =>
    by_cases h : a.Name = n
    · simp [List.find?_cons, h]
    · have h2 : ¬ n = a.Name := fun e => h e.symm
      simp only [List.find?_cons, h, decide_False, List.map_cons, List.mem_cons, h2, false_or]
      exact ih

theorem apiList_ok (k : Kind) (w : World) (ns : String) (hf : w.faulty = false) :
    apiList k w ns =
      (.ok ((w.objs k).filter (fun o => decide (o.Namespace = ns))), w.record (.list k ns)) := by
  simp [apiList, hf]

theorem apiDelete_ok (k : Kind) (w : World) (ns name : String) (hf : w.faulty = false)
    (h : (w.objs k).any (fun x => x.hasKey ns name) = true) :
    apiDelete k w ns name =
      (none, (w.record (.delete k ns name)).setObjs k
        ((w.objs k).filter (fun x => !x.hasKey ns name))) := by
  simp only [apiDelete, hf, record_objs, h]
  simp

theorem pruneLoop_reliable (k : Kind) (ns : String) (toKeep : List (Obj k.Spec))
    (rest : List (Obj k.Spec)) :
    ∀ w : World, w.reliable → (rest.map (fun o => o.Name)).Nodup →
      (∀ o ∈ rest, (w.objs k).any (fun x => x.hasKey ns o.Name) = true) →
      ∃ w1 : World,
        forRange (fun w2 (live : Obj k.Spec) =>
          if (toKeep.find? (fun item => decide (item.Name = live.Name))).isSome then (.nil, w2)
          else match apiDelete k w2 ns live.Name with
            | (some e, w3) => (.error e, w3)
            | (none, w3) => (.nil, w3)) w rest = (.nil, w1) ∧
        w1.objs k = (w.objs k).filter (fun x => !(decide (x.Namespace = ns) &&
          decide (x.Name ∈ (rest.map (fun o => o.Name)).filter
            (fun n => !decide (n ∈ toKeep.map (fun item => item.Name)))))) := by
  induction rest with
  | nil => intro w _ _ _; exact ⟨w, rfl, by simp⟩
  | cons o t ih =>
    intro w hrel hnd hpres
    have hnd2 : (t.map (fun o => o.Name)).Nodup := (List.nodup_cons.1 hnd).2
    have hnot : o.Name ∉ t.map (fun o => o.Name) := (List.nodup_cons.1 hnd).1
    by_cases hk : o.Name ∈ toKeep.map (fun item => item.Name)
    · obtain ⟨w1, hrun, hobjs⟩ := ih w hrel hnd2 (fun o2 ho2 => hpres o2 (List.mem_cons_of_mem _ ho2))
      refine ⟨w1, ?_, ?_⟩
      · rw [forRange_cons_nil _ w w]
        · exact hrun
        · simp only [find_name_isSome, hk, decide_True, if_true]
      · have hf : ((o :: t).map (fun o => o.Name)).filter
            (fun n => !decide (n ∈ toKeep.map (fun item => item.Name))) =
            (t.map (fun o => o.Name)).filter
              (fun n => !decide (n ∈ toKeep.map (fun item => item.Name))) := by
          rw [List.map_cons, List.filter_cons_of_neg]
          simp [hk]
        rw [hobjs, hf]
    · have hdel := apiDelete_ok k w ns o.Name (reliable_faulty hrel) (hpres o (by simp))
      have hrel2 : ((w.record (.delete k ns o.Name)).setObjs k
          ((w.objs k).filter (fun x => !x.hasKey ns o.Name))).reliable :=
        reliable_of_faults (reliable_record hrel (.delete k ns o.Name)) (by simp)
      obtain ⟨w1, hrun, hobjs⟩ := ih _ hrel2 hnd2 (by
        intro o2 ho2
        have h1 := hpres o2 (List.mem_cons_of_mem _ ho2)
        rw [setObjs_objs]
        rw [List.any_eq_true] at h1 ⊢
        obtain ⟨x, hx, hxk⟩ := h1
        refine ⟨x, List.mem_filter.2 ⟨hx, ?_⟩, hxk⟩
        obtain ⟨_, hxn⟩ := (hasKey_iff _ _ _).1 hxk
        have hne : o2.Name ≠ o.Name := by
          intro e
          exact hnot (e ▸ List.mem_map_of_mem (fun o => o.Name) ho2)
        simp [Obj.hasKey, hxn, hne])
      refine ⟨w1, ?_, ?_⟩
      · rw [forRange_cons_nil _ w _]
        · exact hrun
        · simp only [find_name_isSome, hk, decide_False, Bool.false_eq_true, if_false, hdel]
      · have hf : ((o :: t).map (fun o => o.Name)).filter
            (fun n => !decide (n ∈ toKeep.map (fun item => item.Name))) =
            o.Name :: (t.map (fun o => o.Name)).filter
              (fun n => !decide (n ∈ toKeep.map (fun item => item.Name))) := by
          rw [List.map_cons, List.filter_cons_of_pos]
          simp [hk]
        rw [hobjs, setObjs_objs, List.filter_filter, hf]
        generalize (t.map (fun o => o.Name)).filter
          (fun n => !decide (n ∈ toKeep.map (fun item => item.Name))) = doomed
        apply List.filter_congr
        intro x _
        by_cases h1 : x.Namespace = ns <;> by_cases h2 : x.Name = o.Name <;>
          by_cases h3 : x.Name ∈ doomed <;> simp [Obj.hasKey, h1, h2, h3]

theorem liveNames_nodup (w : World) (k : Kind) (ns : String) (hwf : w.WF) :
    (((w.objs k).filter (fun o => decide (o.Namespace = ns))).map (fun o => o.Name)).Nodup := by
  have hkeys := hwf.1 k
  have hnd : (w.objs k).Nodup := List.Nodup.of_map _ hkeys
  have hinj := List.inj_on_of_nodup_map hkeys
  refine List.Nodup.map_on ?_ (hnd.filter _)
  intro x hx y hy hxy
  obtain ⟨hx1, hx2⟩ := List.mem_filter.1 hx
  obtain ⟨hy1, hy2⟩ := List.mem_filter.1 hy
  apply hinj hx1 hy1
  have hx3 : x.Namespace = ns := by simpa using hx2
  have hy3 : y.Namespace = ns := by simpa using hy2
  simp only [Prod.mk.injEq]
  exact ⟨hx3.trans hy3.symm, hxy⟩

/-! ## Pruning with a failing delete -/

theorem apiDelete_faulty (k : Kind) (w : World) (ns name : String) (hf : w.faulty = true) :
    apiDelete k w ns name = (some .unavailable, w.record (.delete k ns name)) := by
  simp [apiDelete, hf]

theorem faulty_of_script {w : World} (h : w.faults[0]? = some true) : w.faulty = true := by
  unfold World.faulty
  cases hf : w.faults with
  | nil => rw [hf] at h; simp at h
  | cons b bs =>
    rw [hf] at h
    simp at h
    simp [h]

theorem script_record {w : World} {i : Nat} (c : Call) (h : w.faults[i + 1]? = some true) :
    (w.record c).faults[i]? = some true := by
  rw [record_faults]
  cases hf : w.faults with
  | nil => rw [hf] at h; simp at h
  | cons b bs =>
    rw [hf] at h
    simpa using h

theorem pruneLoop_abort (k : Kind) (ns : String) (toKeep : List (Obj k.Spec))
    (rest : List (Obj k.Spec)) :
    ∀ (w : World) (i : Nat), (rest.map (fun o => o.Name)).Nodup →
      (∀ o ∈ rest, (w.objs k).any (fun x => x.hasKey ns o.Name) = true) →
      i < ((rest.map (fun o => o.Name)).filter
        (fun n => !decide (n ∈ toKeep.map (fun item => item.Name)))).length →
      w.callsSucceed i → w.faults[i]? = some true →
      ∃ w1 : World,
        forRange (fun w2 (live : Obj k.Spec) =>
          if (toKeep.find? (fun item => decide (item.Name = live.Name))).isSome then (.nil, w2)
          else match apiDelete k w2 ns live.Name with
            | (some e, w3) => (.error e, w3)
            | (none, w3) => (.nil, w3)) w rest = (.error .unavailable, w1) ∧
        w1.objs k = (w.objs k).filter (fun x => !(decide (x.Namespace = ns) &&
          decide (x.Name ∈ ((rest.map (fun o => o.Name)).filter
            (fun n => !decide (n ∈ toKeep.map (fun item => item.Name)))).take i))) ∧
        w1.log = w.log ++ (((rest.map (fun o => o.Name)).filter
            (fun n => !decide (n ∈ toKeep.map (fun item => item.Name)))).take (i + 1)).map
          (fun n => Call.delete k ns n) := by
  induction rest with
  | nil => intro w i _ _ hi _ _; simp at hi
  | cons o t ih =>
    intro w i hnd hpres hi hok hfail
    have hnd2 : (t.map (fun o => o.Name)).Nodup := (List.nodup_cons.1 hnd).2
    have hnot : o.Name ∉ t.map (fun o => o.Name) := (List.nodup_cons.1 hnd).1
    by_cases hk : o.Name ∈ toKeep.map (fun item => item.Name)
    · have hf : ((o :: t).map (fun o => o.Name)).filter
          (fun n => !decide (n ∈ toKeep.map (fun item => item.Name))) =
          (t.map (fun o => o.Name)).filter
            (fun n => !decide (n ∈ toKeep.map (fun item => item.Name))) := by
        rw [List.map_cons, List.filter_cons_of_neg]
        simp [hk]
      rw [hf] at hi ⊢
      obtain ⟨w1, hrun, hobjs, hlog⟩ := ih w i hnd2
        (fun o2 ho2 => hpres o2 (List.mem_cons_of_mem _ ho2)) hi hok hfail
      refine ⟨w1, ?_, hobjs, hlog⟩
      rw [forRange_cons_nil _ w w]
      · exact hrun
      · simp only [find_name_isSome, hk, decide_True, if_true]
    · have hf : ((o :: t).map (fun o => o.Name)).filter
          (fun n => !decide (n ∈ toKeep.map (fun item => item.Name))) =
          o.Name :: (t.map (fun o => o.Name)).filter
            (fun n => !decide (n ∈ toKeep.map (fun item => item.Name))) := by
        rw [List.map_cons, List.filter_cons_of_pos]
        simp [hk]
      rw [hf] at hi ⊢
      cases i with
      | zero =>
        have hdel := apiDelete_faulty k w ns o.Name (faulty_of_script hfail)
        refine ⟨w.record (.delete k ns o.Name), ?_, by simp, by simp⟩
        apply forRange_cons_stop _ _ _ _ _ _ _ (by simp)
        simp only [find_name_isSome, hk, decide_False, Bool.false_eq_true, if_false, hdel]
      | succ j =>
        have hdel := apiDelete_ok k w ns o.Name (callsSucceed_faulty hok) (hpres o (by simp))
        have hok2 : ((w.record (.delete k ns o.Name)).setObjs k
            ((w.objs k).filter (fun x => !x.hasKey ns o.Name))).callsSucceed j := by
          have := callsSucceed_record hok (.delete k ns o.Name)
          unfold World.callsSucceed at this ⊢
          simpa using this
        have hfail2 : ((w.record (.delete k ns o.Name)).setObjs k
            ((w.objs k).filter (fun x => !x.hasKey ns o.Name))).faults[j]? = some true := by
          rw [setObjs_faults]
          exact script_record _ hfail
        obtain ⟨w1, hrun, hobjs, hlog⟩ := ih _ j hnd2 (by
          intro o2 ho2
          have h1 := hpres o2 (List.mem_cons_of_mem _ ho2)
          rw [setObjs_objs]
          rw [List.any_eq_true] at h1 ⊢
          obtain ⟨x, hx, hxk⟩ := h1
          refine ⟨x, List.mem_filter.2 ⟨hx, ?_⟩, hxk⟩
          obtain ⟨_, hxn⟩ := (hasKey_iff _ _ _).1 hxk
          have hne : o2.Name ≠ o.Name := by
            intro e
            exact hnot (e ▸ List.mem_map_of_mem (fun o => o.Name) ho2)
          simp [Obj.hasKey, hxn, hne]) (by simpa using hi) hok2 hfail2
        refine ⟨w1, ?_, ?_, ?_⟩
        · rw [forRange_cons_nil _ w _]
          · exact hrun
          · simp only [find_name_isSome, hk, decide_False, Bool.false_eq_true, if_false, hdel]
        · rw [hobjs, setObjs_objs, List.filter_filter, List.take_succ_cons]
          generalize ((t.map (fun o => o.Name)).filter
            (fun n => !decide (n ∈ toKeep.map (fun item => item.Name)))).take j = doomed
          apply List.filter_congr
          intro x _
          by_cases h1 : x.Namespace = ns <;> by_cases h2 : x.Name = o.Name <;>
            by_cases h3 : x.Name ∈ doomed <;> simp [Obj.hasKey, h1, h2, h3]
        · rw [hlog, setObjs_log, record_log, List.take_succ_cons, List.map_cons,
            List.append_assoc]
          rfl

/-! ## The scope of a prune -/

theorem scoped_refl (desired : (k : Kind) → List (Obj k.Spec)) (w : World) :
    CleanUpScoped desired w w :=
  ⟨rfl, ⟨[], by simp, by simp⟩, fun k => ⟨fun _ => true, by simp, fun _ _ => rfl⟩⟩

theorem scoped_trans (desired : (k : Kind) → List (Obj k.Spec)) (a b c : World)
    (h1 : CleanUpScoped desired a b) (h2 : CleanUpScoped desired b c) :
    CleanUpScoped desired a c := by
  obtain ⟨n1, ⟨c1, l1, q1⟩, o1⟩ := h1
  obtain ⟨n2, ⟨c2, l2, q2⟩, o2⟩ := h2
  refine ⟨n2.trans n1, ⟨c1 ++ c2, by rw [l2, l1, List.append_assoc], ?_⟩, ?_⟩
  · intro x hx
    rcases List.mem_append.1 hx with h | h
    · exact q1 x h
    · exact q2 x h
  · intro k
    obtain ⟨p1, e1, s1⟩ := o1 k
    obtain ⟨p2, e2, s2⟩ := o2 k
    refine ⟨fun x => p2 x && p1 x, by rw [e2, e1, List.filter_filter], ?_⟩
    intro x hx
    simp [s1 x hx, s2 x hx]

theorem forRange_rel {α : Type} (body : World → α → Outcome × World)
    (R : World → World → Prop) (hrefl : ∀ w, R w w)
    (htrans : ∀ a b c, R a b → R b c → R a c) (l : List α) :
    (∀ x ∈ l, ∀ w, R w (body w x).2) → ∀ w, R w (forRange body w l).2 := by
  induction l with
  | nil => intro _ w; exact hrefl w
  | cons x xs ih =>
    intro hb w
    have h1 := hb x (by simp) w
    rcases hbx : body w x with ⟨r, w1⟩
    rw [hbx] at h1
    by_cases hr : r = .nil
    · subst hr
      rw [forRange_cons_nil _ _ _ _ _ hbx]
      exact htrans _ _ _ h1 (ih (fun y hy => hb y (List.mem_cons_of_mem _ hy)) w1)
    · rw [forRange_cons_stop _ _ _ _ _ _ hbx hr]
      exact h1

theorem scoped_record (desired : (k : Kind) → List (Obj k.Spec)) (w : World) (c : Call)
    (hc : c.prunesWithin desired = true) : CleanUpScoped desired w (w.record c) :=
  ⟨rfl, ⟨[c], rfl, by simpa using hc⟩,
    fun k => ⟨fun _ => true, by simp, fun _ _ => rfl⟩⟩

theorem apiDelete_scoped (desired : (k : Kind) → List (Obj k.Spec)) (k : Kind) (w : World)
    (ns name : String) (hns : ns ∈ scopeOf desired k) (hname : name ∉ keepNames desired k ns) :
    CleanUpScoped desired w (apiDelete k w ns name).2 := by
  have hc : (Call.delete k ns name).prunesWithin desired = true := by
    simp [Call.prunesWithin, hns, hname]
  unfold apiDelete
  simp only
  split
  · exact scoped_record desired w _ hc
  · split
    · refine ⟨by simp, ⟨[.delete k ns name], by simp, by simpa using hc⟩, ?_⟩
      intro k2
      by_cases hk : k2 = k
      · subst hk
        refine ⟨fun x => !x.hasKey ns name, by simp, ?_⟩
        intro x hx
        by_cases hkey : x.hasKey ns name = true
        · obtain ⟨h1, h2⟩ := (hasKey_iff _ _ _).1 hkey
          rcases hx with hx | hx
          · exact absurd (h1 ▸ hns) hx
          · rw [h1, h2] at hx
            exact absurd hx hname
        · simpa using hkey
      · refine ⟨fun _ => true, ?_, fun _ _ => rfl⟩
        rw [setObjs_objs_ne _ _ _ _ hk]
        simp
    · exact scoped_record desired w _ hc

theorem cleanUpInNamespace_scoped (desired : (k : Kind) → List (Obj k.Spec)) (k : Kind)
    (w : World) (ns : String) (toKeep : List (Obj k.Spec)) (hns : ns ∈ scopeOf desired k)
    (hkeep : ∀ n, n ∈ toKeep.map (fun item => item.Name) ↔ n ∈ keepNames desired k ns) :
    CleanUpScoped desired w (cleanUpInNamespace k w ns toKeep).2 := by
  have hc : (Call.list k ns).prunesWithin desired = true := by
    simp [Call.prunesWithin, hns]
  unfold cleanUpInNamespace
  have hw : (apiList k w ns).2 = w.record (.list k ns) := by
    unfold apiList
    simp only
    split <;> rfl
  rcases hl : apiList k w ns with ⟨r, w1⟩
  rw [hl] at hw
  simp only at hw
  subst hw
  cases r with
  | error e => exact scoped_record desired w _ hc
  | ok all =>
    simp only
    refine scoped_trans desired _ _ _ (scoped_record desired w _ hc) ?_
    apply forRange_rel _ _ (scoped_refl desired) (scoped_trans desired)
    intro live _ w2
    split
    · exact scoped_refl desired w2
    · rename_i hnot
      have hname : live.Name ∉ keepNames desired k ns := by
        intro h
        apply hnot
        rw [find_name_isSome]
        simpa using (hkeep live.Name).2 h
      have hd := apiDelete_scoped desired k w2 ns live.Name hns hname
      rcases hdel : apiDelete k w2 ns live.Name with ⟨e, w3⟩
      rw [hdel] at hd
      cases e <;> exact hd

/-! ## The scope of CleanUpClusterResources -/

theorem lookup_map_keys {β : Type} (g : String → β) (keys : List String) (key : String) :
    (keys.map (fun k => (k, g k))).lookup key = if key ∈ keys then some (g key) else none := by
  induction keys with
  | nil => simp [List.lookup]
  | cons a t ih =>
    by_cases h : key = a
    · subst h
      simp [List.lookup]
    · have h2 : (key == a) = false := by simpa using h
      simp only [List.map_cons, List.lookup, h2, List.mem_cons, h, false_or]
      exact ih

theorem GroupBy_lookup {α : Type} (collection : List α) (iteratee : α → String) (key : String) :
    (GroupBy collection iteratee).lookup key =
      if key ∈ collection.map iteratee then
        some (collection.filter (fun item => decide (iteratee item = key)))
      else none := by
  unfold GroupBy
  rw [lookup_map_keys (fun key => collection.filter (fun item => decide (iteratee item = key)))]
  simp only [mem_Uniq]

theorem cleanUpGroups_scoped (desired : (k : Kind) → List (Obj k.Spec)) (k : Kind)
    (rangeOrder : List String → List String) (w : World) :
    CleanUpScoped desired w (cleanUpGroups k rangeOrder w (desired k)).2 := by
  unfold cleanUpGroups
  simp only
  apply forRange_rel _ _ (scoped_refl desired) (scoped_trans desired)
  intro group hgroup w1
  obtain ⟨key, _, hkey⟩ := List.mem_filterMap.1 hgroup
  rw [GroupBy_lookup] at hkey
  by_cases hin : key ∈ (desired k).map (fun item => item.Namespace)
  · rw [if_pos hin] at hkey
    simp only [Option.map_some', Option.some.injEq] at hkey
    subst hkey
    exact cleanUpInNamespace_scoped desired k w1 key _ hin (fun n => Iff.rfl)
  · rw [if_neg hin] at hkey
    simp at hkey

theorem CleanUpClusterResources_full (rangeOrder : List String → List String) (w : World)
    (services : List Service) (deployments : List Deployment)
    (virtualServices : List VirtualService) (destinationRules : List DestinationRule)
    (gateway : Gateway) :
    CleanUpClusterResources rangeOrder w (some ⟨some deployments, some destinationRules,
        some gateway, some services, some virtualServices⟩) =
      match cleanUpGroups .service rangeOrder w services with
      | (.nil, w1) =>
        match cleanUpGroups .deployment rangeOrder w1 deployments with
        | (.nil, w2) =>
          match cleanUpGroups .virtualService rangeOrder w2 virtualServices with
          | (.nil, w3) =>
            match cleanUpGroups .destinationRule rangeOrder w3 destinationRules with
            | (.nil, w4) => cleanUpGatewaysInNamespace w4 gateway.Namespace [gateway]
            | (r, w4) => (r, w4)
          | (r, w3) => (r, w3)
        | (r, w2) => (r, w2)
      | (r, w1) => (r, w1) := by
  simp only [CleanUpClusterResources, isValid]
  rfl

theorem CleanUpClusterResources_scoped (rangeOrder : List String → List String) (w : World)
    (services : List Service) (deployments : List Deployment)
    (virtualServices : List VirtualService) (destinationRules : List DestinationRule)
    (gateway : Gateway) :
    CleanUpScoped (desiredOf services deployments virtualServices destinationRules gateway) w
      (CleanUpClusterResources rangeOrder w (some ⟨some deployments, some destinationRules,
        some gateway, some services, some virtualServices⟩)).2 := by
  rw [CleanUpClusterResources_full]
  have h1 := cleanUpGroups_scoped
    (desiredOf services deployments virtualServices destinationRules gateway) .service
    rangeOrder w
  rcases hs : cleanUpGroups .service rangeOrder w services with ⟨r1, w1⟩
  have h1b : CleanUpScoped (desiredOf services deployments virtualServices destinationRules
      gateway) w w1 := by
    have := h1
    simp only [desiredOf] at this
    rw [hs] at this
    exact this
  cases r1 with
  | nil =>
    simp only
    refine scoped_trans _ _ _ _ h1b ?_
    have h2 := cleanUpGroups_scoped
      (desiredOf services deployments virtualServices destinationRules gateway) .deployment
      rangeOrder w1
    rcases hd : cleanUpGroups .deployment rangeOrder w1 deployments with ⟨r2, w2⟩
    have h2b : CleanUpScoped (desiredOf services deployments virtualServices destinationRules
        gateway) w1 w2 := by
      have := h2
      simp only [desiredOf] at this
      rw [hd] at this
      exact this
    cases r2 with
    | nil =>
      simp only
      refine scoped_trans _ _ _ _ h2b ?_
      have h3 := cleanUpGroups_scoped
        (desiredOf services deployments virtualServices destinationRules gateway)
        .virtualService rangeOrder w2
      rcases hv : cleanUpGroups .virtualService rangeOrder w2 virtualServices with ⟨r3, w3⟩
      have h3b : CleanUpScoped (desiredOf services deployments virtualServices
          destinationRules gateway) w2 w3 := by
        have := h3
        simp only [desiredOf] at this
        rw [hv] at this
        exact this
      cases r3 with
      | nil =>
        simp only
        refine scoped_trans _ _ _ _ h3b ?_
        have h4 := cleanUpGroups_scoped
          (desiredOf services deployments virtualServices destinationRules gateway)
          .destinationRule rangeOrder w3
        rcases hr : cleanUpGroups .destinationRule rangeOrder w3 destinationRules with ⟨r4, w4⟩
        have h4b : CleanUpScoped (desiredOf services deployments virtualServices
            destinationRules gateway) w3 w4 := by
          have := h4
          simp only [desiredOf] at this
          rw [hr] at this
          exact this
        cases r4 with
        | nil =>
          simp only
          refine scoped_trans _ _ _ _ h4b ?_
          exact cleanUpInNamespace_scoped _ .gateway w4 gateway.Namespace [gateway]
            (by simp [scopeOf, desiredOf]) (by intro n; simp [keepNames, desiredOf])
        | error e => exact h4b
        | panicked => exact h4b
      | error e => exact h3b
      | panicked => exact h3b
    | error e => exact h2b
    | panicked => exact h2b
  | error e => exact h1b
  | panicked => exact h1b

/-! ## Pruning on a reliable cluster -/

theorem onlyKind_refl (k : Kind) (w : World) : OnlyKind k w w :=
  ⟨fun _ _ => rfl, rfl, fun h => h⟩

theorem onlyKind_trans (k : Kind) (a b c : World) (h1 : OnlyKind k a b)
    (h2 : OnlyKind k b c) : OnlyKind k a c :=
  ⟨fun k2 hk => (h2.1 k2 hk).trans (h1.1 k2 hk), h2.2.1.trans h1.2.1,
    fun h => h2.2.2 (h1.2.2 h)⟩

theorem onlyKind_record (k : Kind) (w : World) (c : Call) : OnlyKind k w (w.record c) :=
  ⟨fun _ _ => by simp, rfl, fun h => reliable_record h c⟩

theorem apiDelete_onlyKind (k : Kind) (w : World) (ns name : String) :
    OnlyKind k w (apiDelete k w ns name).2 := by
  unfold apiDelete
  simp only
  split
  · exact onlyKind_record k w _
  · split
    · refine ⟨fun k2 hk => ?_, by simp, fun h => ?_⟩
      · rw [setObjs_objs_ne _ _ _ _ hk]
        simp
      · exact reliable_of_faults (reliable_record h (.delete k ns name)) (by simp)
    · exact onlyKind_record k w _

theorem cleanUpInNamespace_onlyKind (k : Kind) (w : World) (ns : String)
    (toKeep : List (Obj k.Spec)) : OnlyKind k w (cleanUpInNamespace k w ns toKeep).2 := by
  unfold cleanUpInNamespace
  have hw : (apiList k w ns).2 = w.record (.list k ns) := by
    unfold apiList
    simp only
    split <;> rfl
  rcases hl : apiList k w ns with ⟨r, w1⟩
  rw [hl] at hw
  simp only at hw
  subst hw
  cases r with
  | error e => exact onlyKind_record k w _
  | ok all =>
    simp only
    refine onlyKind_trans k w (w.record (.list k ns)) _ (onlyKind_record k w (.list k ns)) ?_
    apply forRange_rel _ _ (onlyKind_refl k) (onlyKind_trans k)
    intro live _ w2
    split
    · exact onlyKind_refl k w2
    · have hd := apiDelete_onlyKind k w2 ns live.Name
      rcases hdel : apiDelete k w2 ns live.Name with ⟨e, w3⟩
      rw [hdel] at hd
      cases e <;> exact hd

theorem wf_of_filter (k : Kind) (w w2 : World) (p : Obj k.Spec → Bool) (hwf : w.WF)
    (hobjs : w2.objs k = (w.objs k).filter p) (hother : ∀ k2, k2 ≠ k → w2.objs k2 = w.objs k2)
    (hns : w2.namespaces = w.namespaces) : w2.WF := by
  refine ⟨fun k2 => ?_, by rw [hns]; exact hwf.2⟩
  by_cases hk : k2 = k
  · subst hk
    rw [hobjs]
    exact List.Nodup.sublist (List.Sublist.map _ (List.filter_sublist _)) (hwf.1 k2)
  · rw [hother k2 hk]
    exact hwf.1 k2

theorem cleanUpInNamespace_reliable_run (k : Kind) (w : World) (ns : String)
    (toKeep : List (Obj k.Spec)) (hwf : w.WF) (hrel : w.reliable) :
    ∃ w1 : World, cleanUpInNamespace k w ns toKeep = (.nil, w1) ∧ w1.reliable ∧ w1.WF ∧
      w1.objs k = (w.objs k).filter (fun x => !decide (x.Namespace = ns) ||
        decide (x.Name ∈ toKeep.map (fun item => item.Name))) ∧
      (∀ k2, k2 ≠ k → w1.objs k2 = w.objs k2) ∧ w1.namespaces = w.namespaces := by
  have hlist := apiList_ok k w ns (reliable_faulty hrel)
  obtain ⟨w1, hrun, hobjs⟩ := pruneLoop_reliable k ns toKeep
    ((w.objs k).filter (fun o => decide (o.Namespace = ns))) (w.record (.list k ns))
    (reliable_record hrel _) (liveNames_nodup w k ns hwf) (by
      intro o ho
      obtain ⟨ho1, ho2⟩ := List.mem_filter.1 ho
      rw [record_objs, List.any_eq_true]
      exact ⟨o, ho1, by simpa [Obj.hasKey] using ho2⟩)
  have hfull : cleanUpInNamespace k w ns toKeep = (.nil, w1) := by
    unfold cleanUpInNamespace
    rw [hlist]
    exact hrun
  have hframe := cleanUpInNamespace_onlyKind k w ns toKeep
  rw [hfull] at hframe
  have hobjs2 : w1.objs k = (w.objs k).filter (fun x => !decide (x.Namespace = ns) ||
      decide (x.Name ∈ toKeep.map (fun item => item.Name))) := by
    rw [hobjs, record_objs]
    apply List.filter_congr
    intro x hx
    by_cases h1 : x.Namespace = ns
    · have hd : x.Name ∈ (((w.objs k).filter (fun o => decide (o.Namespace = ns))).map
          (fun o => o.Name)).filter
            (fun n => !decide (n ∈ toKeep.map (fun item => item.Name))) ↔
          ¬ x.Name ∈ toKeep.map (fun item => item.Name) := by
        constructor
        · intro h
          have h3 := (List.mem_filter.1 h).2
          simpa using h3
        · intro h2
          have hmem : x ∈ (w.objs k).filter (fun o => decide (o.Namespace = ns)) :=
            List.mem_filter.2 ⟨hx, by simpa using h1⟩
          refine List.mem_filter.2 ⟨?_, by simpa using h2⟩
          exact List.mem_map_of_mem (fun o => o.Name) hmem
      by_cases h2 : x.Name ∈ toKeep.map (fun item => item.Name)
      · have h5 := fun h => hd.1 h h2
        rw [decide_eq_true h1, decide_eq_true h2, decide_eq_false h5]
        rfl
      · have h5 := hd.2 h2
        rw [decide_eq_true h1, decide_eq_false h2, decide_eq_true h5]
        rfl
    · rw [decide_eq_false h1]
      simp
  exact ⟨w1, hfull, hframe.2.2 hrel, wf_of_filter k w w1 _ hwf hobjs2 hframe.1 hframe.2.1,
    hobjs2, hframe.1, hframe.2.1⟩

/-! ## Group loops on a reliable cluster -/

theorem groupsLoop_reliable (k : Kind) (items : List (Obj k.Spec))
    (V : List (String × List (Obj k.Spec))) :
    (∀ g ∈ V, g.2 = items.filter (fun item => decide (item.Namespace = g.1))) →
    ∀ w : World, w.WF → w.reliable →
      ∃ w1 : World,
        forRange (fun w1 (group : String × List (Obj k.Spec)) =>
          cleanUpInNamespace k w1 group.1 group.2) w V = (.nil, w1) ∧
        w1.reliable ∧ w1.WF ∧
        w1.objs k = (w.objs k).filter (fun x => !decide (x.Namespace ∈ V.map Prod.fst) ||
          decide (x.Name ∈ (items.filter
            (fun item => decide (item.Namespace = x.Namespace))).map (fun item => item.Name))) ∧
        (∀ k2, k2 ≠ k → w1.objs k2 = w.objs k2) ∧ w1.namespaces = w.namespaces := by
  induction V with
  | nil =>
    intro _ w hwf hrel
    exact ⟨w, rfl, hrel, hwf, by simp, fun _ _ => rfl, rfl⟩
  | cons g t ih =>
    intro hV w hwf hrel
    obtain ⟨gn, gl⟩ := g
    have hgl : gl = items.filter (fun item => decide (item.Namespace = gn)) :=
      hV (gn, gl) (by simp)
    obtain ⟨w1, hrun1, hrel1, hwf1, hobjs1, hframe1, hns1⟩ :=
      cleanUpInNamespace_reliable_run k w gn gl hwf hrel
    obtain ⟨w2, hrun2, hrel2, hwf2, hobjs2, hframe2, hns2⟩ :=
      ih (fun g2 hg2 => hV g2 (List.mem_cons_of_mem _ hg2)) w1 hwf1 hrel1
    refine ⟨w2, ?_, hrel2, hwf2, ?_, fun k2 hk => (hframe2 k2 hk).trans (hframe1 k2 hk),
      hns2.trans hns1⟩
    · rw [forRange_cons_nil _ w w1 (gn, gl) t hrun1]
      exact hrun2
    · rw [hobjs2, hobjs1, List.filter_filter, hgl]
      apply List.filter_congr
      intro x _
      by_cases h1 : x.Namespace = gn
      · subst h1
        by_cases h2 : x.Name ∈ (items.filter
            (fun item => decide (item.Namespace = x.Namespace))).map (fun item => item.Name)
        · simp [h2]
        · simp [h2]
      · have h4 : (x.Namespace == gn) = false := by simpa using h1
        simp [h1, h4]

theorem cleanUpGroups_reliable (k : Kind) (rangeOrder : List String → List String)
    (items : List (Obj k.Spec)) (hperm : ∀ keys, (rangeOrder keys).Perm keys) (w : World)
    (hwf : w.WF) (hrel : w.reliable) :
    ∃ w1 : World, cleanUpGroups k rangeOrder w items = (.nil, w1) ∧ w1.reliable ∧ w1.WF ∧
      w1.objs k = (w.objs k).filter (fun x =>
        !decide (x.Namespace ∈ items.map (fun item => item.Namespace)) ||
          decide (x.Name ∈ (items.filter
            (fun item => decide (item.Namespace = x.Namespace))).map (fun item => item.Name))) ∧
      (∀ k2, k2 ≠ k → w1.objs k2 = w.objs k2) ∧ w1.namespaces = w.namespaces := by
  have hkeys : (GroupBy items (fun item => item.Namespace)).map (fun g => g.1) =
      Uniq (items.map (fun item => item.Namespace)) := by
    unfold GroupBy
    rw [List.map_map]
    exact List.map_id _
  have hV : ∀ g ∈ (rangeOrder ((GroupBy items (fun item => item.Namespace)).map
      (fun g => g.1))).filterMap (fun key =>
        ((GroupBy items (fun item => item.Namespace)).lookup key).map (fun g => (key, g))),
      g.2 = items.filter (fun item => decide (item.Namespace = g.1)) := by
    intro g hg
    obtain ⟨key, _, hkey⟩ := List.mem_filterMap.1 hg
    rw [GroupBy_lookup] at hkey
    by_cases hin : key ∈ items.map (fun item => item.Namespace)
    · rw [if_pos hin] at hkey
      simp only [Option.map_some', Option.some.injEq] at hkey
      subst hkey
      rfl
    · rw [if_neg hin] at hkey
      simp at hkey
  have hmem : ∀ n : String,
      n ∈ ((rangeOrder ((GroupBy items (fun item => item.Namespace)).map
        (fun g => g.1))).filterMap (fun key =>
          ((GroupBy items (fun item => item.Namespace)).lookup key).map
            (fun g => (key, g)))).map Prod.fst ↔
        n ∈ items.map (fun item => item.Namespace) := by
    intro n
    constructor
    · intro h
      obtain ⟨g, hg, hgn⟩ := List.mem_map.1 h
      obtain ⟨key, _, hkey⟩ := List.mem_filterMap.1 hg
      rw [GroupBy_lookup] at hkey
      by_cases hin : key ∈ items.map (fun item => item.Namespace)
      · rw [if_pos hin] at hkey
        simp only [Option.map_some', Option.some.injEq] at hkey
        subst hkey
        simp only at hgn
        rw [← hgn]
        exact hin
      · rw [if_neg hin] at hkey
        simp at hkey
    · intro h
      refine List.mem_map.2 ⟨(n, items.filter (fun item => decide (item.Namespace = n))), ?_, rfl⟩
      refine List.mem_filterMap.2 ⟨n, ?_, ?_⟩
      · rw [hkeys]
        exact ((hperm _).mem_iff).2 ((mem_Uniq _ _).2 h)
      · rw [GroupBy_lookup, if_pos h]
        rfl
  obtain ⟨w1, hrun, hrel1, hwf1, hobjs, hframe, hns⟩ :=
    groupsLoop_reliable k items _ hV w hwf hrel
  refine ⟨w1, hrun, hrel1, hwf1, ?_, hframe, hns⟩
  rw [hobjs]
  apply List.filter_congr
  intro x _
  simp only [hmem x.Namespace]

/-! ## CleanUpClusterResources on a reliable cluster -/

theorem CleanUpClusterResources_reliable (rangeOrder : List String → List String)
    (hperm : ∀ keys, (rangeOrder keys).Perm keys) (w : World) (hwf : w.WF) (hrel : w.reliable)
    (services : List Service) (deployments : List Deployment)
    (virtualServices : List VirtualService) (destinationRules : List DestinationRule)
    (gateway : Gateway) :
    ∃ w5 : World,
      CleanUpClusterResources rangeOrder w (some ⟨some deployments, some destinationRules,
        some gateway, some services, some virtualServices⟩) = (.nil, w5) ∧
      ∀ k, w5.objs k = (w.objs k).filter (fun x =>
        !decide (x.Namespace ∈
          scopeOf (desiredOf services deployments virtualServices destinationRules gateway) k) ||
        decide (x.Name ∈
          keepNames (desiredOf services deployments virtualServices destinationRules gateway) k
            x.Namespace)) := by
  obtain ⟨w1, r1, hrel1, hwf1, ho1, hf1, _⟩ :=
    cleanUpGroups_reliable .service rangeOrder services hperm w hwf hrel
  obtain ⟨w2, r2, hrel2, hwf2, ho2, hf2, _⟩ :=
    cleanUpGroups_reliable .deployment rangeOrder deployments hperm w1 hwf1 hrel1
  obtain ⟨w3, r3, hrel3, hwf3, ho3, hf3, _⟩ :=
    cleanUpGroups_reliable .virtualService rangeOrder virtualServices hperm w2 hwf2 hrel2
  obtain ⟨w4, r4, hrel4, hwf4, ho4, hf4, _⟩ :=
    cleanUpGroups_reliable .destinationRule rangeOrder destinationRules hperm w3 hwf3 hrel3
  obtain ⟨w5, r5, _, _, ho5, hf5, _⟩ :=
    cleanUpInNamespace_reliable_run .gateway w4 gateway.Namespace [gateway] hwf4 hrel4
  refine ⟨w5, ?_, ?_⟩
  · rw [CleanUpClusterResources_full, r1]
    simp only
    rw [r2]
    simp only
    rw [r3]
    simp only
    rw [r4]
    exact r5
  · intro k
    cases k with
    | service =>
      rw [hf5 .service (by decide), hf4 .service (by decide), hf3 .service (by decide),
        hf2 .service (by decide)]
      exact ho1
    | deployment =>
      rw [hf5 .deployment (by decide), hf4 .deployment (by decide),
        hf3 .deployment (by decide), ho2, hf1 .deployment (by decide)]
      rfl
    | virtualService =>
      rw [hf5 .virtualService (by decide), hf4 .virtualService (by decide), ho3,
        hf2 .virtualService (by decide), hf1 .virtualService (by decide)]
      rfl
    | destinationRule =>
      rw [hf5 .destinationRule (by decide), ho4, hf3 .destinationRule (by decide),
        hf2 .destinationRule (by decide), hf1 .destinationRule (by decide)]
      rfl
    | gateway =>
      rw [ho5, hf4 .gateway (by decide), hf3 .gateway (by decide), hf2 .gateway (by decide),
        hf1 .gateway (by decide)]
      apply List.filter_congr
      intro x _
      by_cases h1 : x.Namespace = gateway.Namespace
      · have h2 : gateway.Namespace = x.Namespace := h1.symm
        simp [scopeOf, keepNames, desiredOf, h1, List.filter_cons]
      · have h2 : ¬ gateway.Namespace = x.Namespace := fun e => h1 e.symm
        simp [scopeOf, keepNames, desiredOf, h1, h2, List.filter_cons]

/-! ## Namespace ensure on every run -/

theorem ensureLoop_log_prefix (names : List String) :
    ∀ w : World, ∃ calls : List Call,
      (forRange ensureNamespace w names).2.log = w.log ++ calls ∧
      (∀ c ∈ calls, c.isNamespaceCall = true) ∧
      ensuredNamespaces calls <+: names ∧
      ((forRange ensureNamespace w names).1 = .nil → ensuredNamespaces calls = names) := by
  induction names with
  | nil =>
    intro w
    exact ⟨[], by simp [forRange], by simp, List.prefix_refl _, fun _ => rfl⟩
  | cons n rest ih =>
    intro w
    obtain ⟨tl, hlog, hns, hens⟩ := ensureNamespace_log w n
    rcases hb : ensureNamespace w n with ⟨r, w1⟩
    rw [hb] at hlog
    simp only at hlog
    by_cases hr : r = .nil
    · subst hr
      rw [forRange_cons_nil _ _ _ _ _ hb]
      obtain ⟨calls, hlog2, hns2, hpre2, hens2⟩ := ih w1
      have hsplit : ensuredNamespaces ((Call.getNamespace n :: tl) ++ calls) =
          n :: ensuredNamespaces calls := by
        unfold ensuredNamespaces at hens ⊢
        rw [List.filterMap_append, List.filterMap_cons, hens]
        rfl
      refine ⟨(.getNamespace n :: tl) ++ calls, ?_, ?_, ?_, ?_⟩
      · rw [hlog2, hlog, List.append_assoc]
      · intro c hc
        rcases List.mem_append.1 hc with h1 | h1
        · rcases List.mem_cons.1 h1 with rfl | h2
          · rfl
          · exact hns c h2
        · exact hns2 c h1
      · rw [hsplit]
        exact (List.prefix_cons_inj n).2 hpre2
      · intro hnil
        rw [hsplit, hens2 hnil]
    · rw [forRange_cons_stop _ _ _ _ _ _ hb hr]
      have hone : ensuredNamespaces (Call.getNamespace n :: tl) = [n] := by
        unfold ensuredNamespaces at hens ⊢
        rw [List.filterMap_cons, hens]
      refine ⟨.getNamespace n :: tl, hlog, ?_, ?_, fun h => absurd h hr⟩
      · intro c hc
        rcases List.mem_cons.1 hc with rfl | h2
        · rfl
        · exact hns c h2
      · rw [hone]
        exact ⟨rest, rfl⟩

theorem apiUpdateNamespace_keeps_labels (w : World) (n : Namespace) (hn : n.Labels ≠ none)
    (h : ∀ x ∈ w.namespaces, x.Labels ≠ none) :
    ∀ x ∈ (apiUpdateNamespace w n).2.namespaces, x.Labels ≠ none := by
  unfold apiUpdateNamespace
  simp only
  split
  · exact h
  · split
    · exact h
    · split
      · exact h
      · intro x hx
        simp only [bump_namespaces, setNamespaces_namespaces, record_namespaces] at hx
        obtain ⟨y, hy, hyx⟩ := List.mem_map.1 hx
        by_cases hname : y.Name = n.Name
        · rw [if_pos hname] at hyx
          rw [← hyx]
          exact hn
        · rw [if_neg hname] at hyx
          rw [← hyx]
          exact h y hy

theorem apiCreateNamespace_keeps_labels (w : World) (n : Namespace) (hn : n.Labels ≠ none)
    (h : ∀ x ∈ w.namespaces, x.Labels ≠ none) :
    ∀ x ∈ (apiCreateNamespace w n).2.namespaces, x.Labels ≠ none := by
  unfold apiCreateNamespace
  simp only
  split
  · exact h
  · split
    · exact h
    · intro x hx
      simp only [bump_namespaces, setNamespaces_namespaces, record_namespaces] at hx
      rcases List.mem_append.1 hx with h1 | h1
      · exact h x h1
      · have : x = n.withVersion (w.version + 1) := by simpa using h1
        rw [this]
        exact hn

theorem ensureNamespace_keeps_labels (w : World) (name : String)
    (h : ∀ x ∈ w.namespaces, x.Labels ≠ none) :
    ∀ x ∈ (ensureNamespace w name).2.namespaces, x.Labels ≠ none := by
  unfold ensureNamespace
  have hw := apiGetNamespace_world w name
  rcases hg : apiGetNamespace w name with ⟨r, w1⟩
  rw [hg] at hw
  simp only at hw
  subst hw
  cases r with
  | ok existing =>
    simp only
    split
    · cases hL : existing.Labels with
      | none => exact h
      | some labels =>
        simp only
        exact apiUpdateNamespace_keeps_labels _ _ (by simp) h
    · exact h
  | error e =>
    simp only
    have hc := apiCreateNamespace_keeps_labels (w.record (.getNamespace name))
      ⟨name, some [(istioLabel, enabledIstioValue)], 0⟩ (by simp) h
    rcases hcr : apiCreateNamespace (w.record (.getNamespace name))
      ⟨name, some [(istioLabel, enabledIstioValue)], 0⟩ with ⟨r2, w2⟩
    rw [hcr] at hc
    cases r2 <;> exact hc

theorem ensureLoop_nil_of_labels (names : List String) :
    ∀ w : World, w.reliable → (∀ x ∈ w.namespaces, x.Labels ≠ none) →
      (forRange ensureNamespace w names).1 = .nil := by
  induction names with
  | nil => intro w _ _; rfl
  | cons n rest ih =>
    intro w hrel hlab
    rcases ensureNamespace_step w n hrel with ⟨_, x, hx, hnil⟩ | ⟨w1, hrun, hrel1, _, _, _⟩
    · exact absurd hnil (hlab x (List.mem_of_find?_eq_some hx))
    · rw [forRange_cons_nil _ _ _ _ _ hrun]
      apply ih w1 hrel1
      have hk := ensureNamespace_keeps_labels w n hlab
      rw [hrun] at hk
      exact hk

/-- On a cluster where no call fails but the stored namespace `shop` has a nil
label map, `ensureNamespace` panics on `shop`: the run ends there, with
`ingress` not ensured and no upsert issued. -/
theorem ApplyClusterResources_nil_label_map_panics :
    nilLabelWorld.reliable ∧
      (ApplyClusterResources nilLabelWorld (some fullBundle)).1 = Outcome.panicked ∧
      ensuredNamespaces (ApplyClusterResources nilLabelWorld (some fullBundle)).2.2.log =
        ["shop"] ∧
      ((ApplyClusterResources nilLabelWorld (some fullBundle)).2.2.log.filter
        (fun c => !c.isNamespaceCall)).length = 0 := by
  decide

/-- On a cluster where every `ensureNamespace` call succeeds and the first
upsert then fails, `ApplyClusterResources` returns that error after ensuring
`shop` and `ingress`. -/
theorem ApplyClusterResources_upsert_fails_after_ensure :
    (forRange ensureNamespace upsertFailsWorld ["shop", "ingress"]).1 = Outcome.nil ∧
      (ApplyClusterResources upsertFailsWorld (some fullBundle)).1 =
        Outcome.error Err.unavailable ∧
      ensuredNamespaces (ApplyClusterResources upsertFailsWorld (some fullBundle)).2.2.log =
        ["shop", "ingress"] := by
  decide

/-! ## Claims -/

/-- C2 (the code departs from the claim): the service `orders` is live with
version token 1 and the `Get` of `createOrUpdateService` fails for a reason
other than absence.  The routine takes the create branch: it issues one
`Create` and no `Update`, and returns the `alreadyExists` error of that
`Create`. -/
theorem createOrUpdateService_get_error_creates :
    getFailsWorld.services.find? (fun o => o.hasKey "shop" "orders") =
        some (ordersService.withVersion 1) ∧
      (createOrUpdateService getFailsWorld ordersService).2.2.log =
        [Call.get .service "shop" "orders", Call.create .service ordersService] ∧
      ((createOrUpdateService getFailsWorld ordersService).2.2.log.filter Call.isCreate).length
        = 1 ∧
      ((createOrUpdateService getFailsWorld ordersService).2.2.log.filter Call.isUpdate).length
        = 0 ∧
      (createOrUpdateService getFailsWorld ordersService).1 = Outcome.error Err.alreadyExists :=
  ⟨by decide, rfl, by decide, by decide, by decide⟩

/-- C4 (as stated, refuted): `Get` and `Update` succeed on the stored virtual
service `orders`, yet the stored object after `AddRoutingRule` is not the old
one with only its rule list changed: its version token is a new one. -/
theorem AddRoutingRule_version_token_changes :
    routingWorld.callsSucceed 2 ∧
      routingWorld.virtualServices.find? (fun o => o.hasKey "shop" "orders") = some ordersVS ∧
      (AddRoutingRule routingWorld "shop" "orders" canaryRoute).1 = Outcome.nil ∧
      ¬ ((AddRoutingRule routingWorld "shop" "orders" canaryRoute).2.virtualServices.find?
          (fun o => o.hasKey "shop" "orders") =
        some (ordersVS.withSpec
          ⟨ordersVS.Spec.Hosts, ordersVS.Spec.Gateways, canaryRoute :: ordersVS.Spec.Http⟩)) := by
  decide

/-- C4 (amended): when the stored virtual service `vs` is found and the `Get`
and `Update` calls succeed, `AddRoutingRule` returns nil and the stored
virtual service has the rule list `r :: R`; its namespace, name, labels, hosts
and gateways are those of `vs`, and its version token is the next one handed
out by the store. -/
theorem AddRoutingRule_prepends (w : World) (ns vsName : String) (r : HTTPRoute)
    (vs : VirtualService)
    (hfind : w.virtualServices.find? (fun o => o.hasKey ns vsName) = some vs)
    (hok : w.callsSucceed 2) :
    (AddRoutingRule w ns vsName r).1 = Outcome.nil ∧
    (AddRoutingRule w ns vsName r).2.virtualServices.find? (fun o => o.hasKey ns vsName) =
      some ⟨vs.Namespace, vs.Name, w.version + 1, vs.Labels,
        ⟨vs.Spec.Hosts, vs.Spec.Gateways, r :: vs.Spec.Http⟩⟩ := by
  rw [AddRoutingRule_run w ns vsName r vs hfind hok]
  refine ⟨rfl, ?_⟩
  exact find_map_replace _ _ vs _ hfind (by simpa using List.find?_some hfind)

/-- C4 (amended), at the virtual service `orders` with one stored rule. -/
theorem AddRoutingRule_prepends_witness :
    (AddRoutingRule routingWorld "shop" "orders" canaryRoute).1 = Outcome.nil ∧
    (AddRoutingRule routingWorld "shop" "orders" canaryRoute).2.virtualServices.find?
        (fun o => o.hasKey "shop" "orders") =
      some ⟨"shop", "orders", 2, [], ⟨["orders"], [], [canaryRoute, ⟨"stable", [("orders", "v1", 100)]⟩]⟩⟩ :=
  AddRoutingRule_prepends routingWorld "shop" "orders" canaryRoute ordersVS (by decide) (by decide)

/-- C5 (the code departs from the claim): the stored destination rule has the
subset `v1`, and `AddSubset` is given another subset named `v1`.  `Get` and
`Update` succeed and the routine returns nil, but the stored entry keeps its
old content: it is not equal to the given subset. -/
theorem AddSubset_same_name_not_replaced :
    subsetWorld.callsSucceed 2 ∧
      subsetWorld.destinationRules.find? (fun o => o.hasKey "shop" "orders") = some ordersDR ∧
      (AddSubset subsetWorld "shop" "orders" subsetV1).1 = Outcome.nil ∧
      (AddSubset subsetWorld "shop" "orders" subsetV1).2.destinationRules.map
          (fun d => d.Spec.Subsets) = [[⟨"v1", [("version", "v1")]⟩]] ∧
      (⟨"v1", [("version", "v1")]⟩ : Subset) ≠ subsetV1 := by
  decide

/-- C6: when the stored destination rule `dr` is found, the `Get` and `Update`
calls succeed and no subset of `dr` has the name of `s`, `AddSubset` returns
nil and the stored subset list is the old list followed by `s`. -/
theorem AddSubset_appends (w : World) (ns drName : String) (s : Subset) (dr : DestinationRule)
    (hfind : w.destinationRules.find? (fun o => o.hasKey ns drName) = some dr)
    (hok : w.callsSucceed 2) (hfresh : ∀ x ∈ dr.Spec.Subsets, x.Name ≠ s.Name) :
    (AddSubset w ns drName s).1 = Outcome.nil ∧
    (AddSubset w ns drName s).2.destinationRules.find? (fun o => o.hasKey ns drName) =
      some ⟨dr.Namespace, dr.Name, w.version + 1, dr.Labels,
        ⟨dr.Spec.Host, dr.Spec.Subsets ++ [s]⟩⟩ := by
  rw [AddSubset_run w ns drName s dr hfind hok]
  refine ⟨rfl, ?_⟩
  rw [shouldAddNewSubset_fresh _ _ hfresh]
  exact find_map_replace _ _ dr _ hfind (by simpa using List.find?_some hfind)

/-- C6, at the destination rule `orders` with the subset `v1`, adding `v2`. -/
theorem AddSubset_appends_witness :
    (AddSubset subsetWorld "shop" "orders" subsetV2).1 = Outcome.nil ∧
    (AddSubset subsetWorld "shop" "orders" subsetV2).2.destinationRules.find?
        (fun o => o.hasKey "shop" "orders") =
      some ⟨"shop", "orders", 2, [], ⟨"orders", [⟨"v1", [("version", "v1")]⟩, subsetV2]⟩⟩ :=
  AddSubset_appends subsetWorld "shop" "orders" subsetV2 ordersDR (by decide) (by decide)
    (by decide)

/-- C7 (the code departs from the claim): the namespace `shop` is present
without the injection label and the label `Update` fails.  `ensureNamespace`
returns nil although the stored namespace still lacks `istio-injection`. -/
theorem ensureNamespace_swallows_update_error :
    (ensureNamespace labelWorld "shop").1 = Outcome.nil ∧
      (ensureNamespace labelWorld "shop").2.namespaces = [shopNamespace] ∧
      mapGet shopNamespace.Labels istioLabel = none ∧
      (ensureNamespace labelWorld "shop").2.log =
        [Call.getNamespace "shop",
         Call.updateNamespace
           ⟨"shop", some [("team", "a"), ("istio-injection", "enabled")], 1⟩] :=
  ⟨by decide, by decide, by decide, rfl⟩

/-- C8 (the code departs from the claim): on the bundle with the single
service `orders` in `shop` and the other four fields absent, `isValid` holds
and `ApplyClusterResources` panics on the first absent collection; no call is
issued, so neither the namespace nor the service is created. -/
theorem ApplyClusterResources_services_only_panics :
    isValid (some servicesOnlyBundle) = true ∧
      (ApplyClusterResources emptyWorld (some servicesOnlyBundle)).1 = Outcome.panicked ∧
      (ApplyClusterResources emptyWorld (some servicesOnlyBundle)).2.2.log = [] ∧
      (ApplyClusterResources emptyWorld (some servicesOnlyBundle)).2.2.namespaces = [] ∧
      (ApplyClusterResources emptyWorld (some servicesOnlyBundle)).2.2.services = [] :=
  ⟨by decide, by decide, rfl, by decide, by decide⟩

/-- C9: `isValid` is false exactly for the nil bundle and for the bundle whose
five fields are absent, and on both `ApplyClusterResources` and
`CleanUpClusterResources` return nil and leave the cluster, its call log
included, as it was. -/
theorem invalid_bundle_is_noop :
    (∀ b : Option ClusterResources, isValid b = false ↔
      (b = none ∨ ∃ cr, b = some cr ∧ cr.Services = none ∧ cr.Deployments = none ∧
        cr.VirtualServices = none ∧ cr.DestinationRules = none ∧ cr.Gateway = none)) ∧
    (∀ (w : World) (rangeOrder : List String → List String),
      ApplyClusterResources w none = (.nil, none, w) ∧
      CleanUpClusterResources rangeOrder w none = (.nil, w) ∧
      ApplyClusterResources w (some ⟨none, none, none, none, none⟩) =
        (.nil, some ⟨none, none, none, none, none⟩, w) ∧
      CleanUpClusterResources rangeOrder w (some ⟨none, none, none, none, none⟩) = (.nil, w)) := by
  refine ⟨?_, ?_⟩
  · intro b
    cases b with
    | none => simp [isValid]
    | some cr =>
      obtain ⟨d, r, g, s, v⟩ := cr
      cases d <;> cases r <;> cases g <;> cases s <;> cases v <;> simp [isValid]
  · intro w ro
    exact ⟨rfl, rfl, rfl, rfl⟩

/-- C3: on a cluster whose calls do not fail, a second `ApplyClusterResources`
on the same bundle (as the first call left it, or as given) leaves the live
resource set of the first call: namespaces with their labels and the objects
of the five kinds, compared with version tokens erased. -/
theorem ApplyClusterResources_idempotent (w : World) (b : Option ClusterResources)
    (h : w.reliable) :
    (ApplyClusterResources (ApplyClusterResources w b).2.2
        (ApplyClusterResources w b).2.1).2.2.liveSet = (ApplyClusterResources w b).2.2.liveSet ∧
    (ApplyClusterResources (ApplyClusterResources w b).2.2 b).2.2.liveSet =
      (ApplyClusterResources w b).2.2.liveSet := by
  cases b with
  | none => exact ⟨rfl, rfl⟩
  | some cr =>
    obtain ⟨d, r, g, s, v⟩ := cr
    cases d <;> cases r <;> cases g <;> cases s <;> cases v <;>
      first
      | exact ⟨rfl, rfl⟩
      | (rename_i d r g s v
         obtain ⟨o, g1, w1, hrun, hg1, _, htwice⟩ := apply_full_twice w s d v r g h
         rw [hrun]
         exact ⟨htwice g1 hg1, htwice g rfl⟩)

/-- C3, at the empty cluster and a bundle with one object of each kind. -/
theorem ApplyClusterResources_idempotent_witness :
    emptyWorld.reliable ∧
    (ApplyClusterResources (ApplyClusterResources emptyWorld (some fullBundle)).2.2
        (ApplyClusterResources emptyWorld (some fullBundle)).2.1).2.2.liveSet =
      (ApplyClusterResources emptyWorld (some fullBundle)).2.2.liveSet ∧
    (ApplyClusterResources (ApplyClusterResources emptyWorld (some fullBundle)).2.2
        (some fullBundle)).2.2.liveSet =
      (ApplyClusterResources emptyWorld (some fullBundle)).2.2.liveSet :=
  ⟨by decide, ApplyClusterResources_idempotent emptyWorld (some fullBundle) (by decide)⟩

/-- C1: on a cluster whose identities are unique and whose calls do not fail,
each of the five `cleanUp<Kind>InNamespace` routines (`cleanUpInNamespace` at
the kind) returns nil, and afterwards the live names of that kind in that
namespace are the former live names that occur as a name in the keep list. -/
theorem cleanUpInNamespace_prunes (k : Kind) (w : World) (ns : String)
    (toKeep : List (Obj k.Spec)) (hwf : w.WF) (hrel : w.reliable) :
    (cleanUpInNamespace k w ns toKeep).1 = Outcome.nil ∧
    (cleanUpInNamespace k w ns toKeep).2.liveNames k ns =
      (w.liveNames k ns).filter (fun n => decide (n ∈ toKeep.map (fun item => item.Name))) := by
  have hlist := apiList_ok k w ns (reliable_faulty hrel)
  obtain ⟨w1, hrun, hobjs⟩ := pruneLoop_reliable k ns toKeep
    ((w.objs k).filter (fun o => decide (o.Namespace = ns))) (w.record (.list k ns))
    (reliable_record hrel _) (liveNames_nodup w k ns hwf) (by
      intro o ho
      obtain ⟨ho1, ho2⟩ := List.mem_filter.1 ho
      rw [record_objs, List.any_eq_true]
      exact ⟨o, ho1, by simpa [Obj.hasKey] using ho2⟩)
  have hfull : cleanUpInNamespace k w ns toKeep = (.nil, w1) := by
    unfold cleanUpInNamespace
    rw [hlist]
    exact hrun
  rw [hfull]
  refine ⟨rfl, ?_⟩
  unfold World.liveNames
  rw [hobjs, record_objs]
  conv_rhs => rw [List.filter_map]
  congr 1
  rw [List.filter_filter, List.filter_filter]
  apply List.filter_congr
  intro x hx
  simp only [Function.comp]
  by_cases h1 : x.Namespace = ns
  · have hd : x.Name ∈ (((w.objs k).filter (fun o => decide (o.Namespace = ns))).map
        (fun o => o.Name)).filter
          (fun n => !decide (n ∈ toKeep.map (fun item => item.Name))) ↔
        ¬ x.Name ∈ toKeep.map (fun item => item.Name) := by
      constructor
      · intro h
        have h3 := (List.mem_filter.1 h).2
        simpa using h3
      · intro h2
        have hmem : x ∈ (w.objs k).filter (fun o => decide (o.Namespace = ns)) :=
          List.mem_filter.2 ⟨hx, by simpa using h1⟩
        refine List.mem_filter.2 ⟨?_, by simpa using h2⟩
        exact List.mem_map_of_mem (fun o => o.Name) hmem
    by_cases h2 : x.Name ∈ toKeep.map (fun item => item.Name)
    · have h5 := fun h => hd.1 h h2
      rw [decide_eq_true h1, decide_eq_true h2, decide_eq_false h5]
      rfl
    · have h5 := hd.2 h2
      rw [decide_eq_true h1, decide_eq_false h2, decide_eq_true h5]
      rfl
  · rw [decide_eq_false h1]
    simp

/-- C1, at the namespace `shop` with live services `orders` and `legacy` and
the keep list `orders`. -/
theorem cleanUpInNamespace_prunes_witness :
    pruneWorld.WF ∧ pruneWorld.reliable ∧
    (cleanUpInNamespace .service pruneWorld "shop" [ordersService]).1 = Outcome.nil ∧
    (cleanUpInNamespace .service pruneWorld "shop" [ordersService]).2.liveNames .service "shop" =
      ["orders"] :=
  ⟨⟨fun k => by cases k <;> decide, by decide⟩, by decide,
    cleanUpInNamespace_prunes .service pruneWorld "shop" [ordersService]
      ⟨fun k => by cases k <;> decide, by decide⟩ (by decide)⟩

/-- C11: on a cluster whose identities are unique, let the doomed names be the
live names of the namespace, in list order, that the keep list does not name.
If the `List` and the first `i` `Delete`s succeed and the `Delete` of doomed
name `i` fails, then each of the five `cleanUp<Kind>InNamespace` routines
(`cleanUpInNamespace` at the kind) returns that error; its calls are the
`List` and the `Delete`s of doomed names `0` to `i`, so nothing later in the
list is deleted; the live names afterwards are the former ones without doomed
names `0` to `i - 1`; and every live name the keep list names is still live. -/
theorem cleanUpInNamespace_aborts (k : Kind) (w : World) (ns : String)
    (toKeep : List (Obj k.Spec)) (i : Nat) (hwf : w.WF)
    (hi : i < ((w.liveNames k ns).filter
      (fun n => !decide (n ∈ toKeep.map (fun item => item.Name)))).length)
    (hok : w.callsSucceed (i + 1)) (hfail : w.faults[i + 1]? = some true) :
    (cleanUpInNamespace k w ns toKeep).1 = Outcome.error Err.unavailable ∧
    (cleanUpInNamespace k w ns toKeep).2.log =
      w.log ++ Call.list k ns :: (((w.liveNames k ns).filter
        (fun n => !decide (n ∈ toKeep.map (fun item => item.Name)))).take (i + 1)).map
          (fun n => Call.delete k ns n) ∧
    (cleanUpInNamespace k w ns toKeep).2.liveNames k ns =
      (w.liveNames k ns).filter (fun n => !decide (n ∈ ((w.liveNames k ns).filter
        (fun n => !decide (n ∈ toKeep.map (fun item => item.Name)))).take i)) ∧
    (∀ n ∈ w.liveNames k ns, n ∈ toKeep.map (fun item => item.Name) →
      n ∈ (cleanUpInNamespace k w ns toKeep).2.liveNames k ns) := by
  have hlist := apiList_ok k w ns (callsSucceed_faulty hok)
  obtain ⟨w1, hrun, hobjs, hlog⟩ := pruneLoop_abort k ns toKeep
    ((w.objs k).filter (fun o => decide (o.Namespace = ns))) (w.record (.list k ns)) i
    (liveNames_nodup w k ns hwf) (by
      intro o ho
      obtain ⟨ho1, ho2⟩ := List.mem_filter.1 ho
      rw [record_objs, List.any_eq_true]
      exact ⟨o, ho1, by simpa [Obj.hasKey] using ho2⟩) hi
    (callsSucceed_record hok _) (script_record _ hfail)
  have hfull : cleanUpInNamespace k w ns toKeep = (.error .unavailable, w1) := by
    unfold cleanUpInNamespace
    rw [hlist]
    exact hrun
  have hlive : w1.liveNames k ns =
      (w.liveNames k ns).filter (fun n => !decide (n ∈ ((w.liveNames k ns).filter
        (fun n => !decide (n ∈ toKeep.map (fun item => item.Name)))).take i)) := by
    unfold World.liveNames
    rw [hobjs, record_objs]
    conv_rhs => rw [List.filter_map]
    congr 1
    rw [List.filter_filter, List.filter_filter]
    apply List.filter_congr
    intro x _
    simp only [Function.comp]
    by_cases h1 : x.Namespace = ns
    · rw [decide_eq_true h1]
      simp
    · rw [decide_eq_false h1]
      simp
  rw [hfull]
  refine ⟨rfl, ?_, hlive, ?_⟩
  · rw [hlog, record_log, List.append_assoc]
    rfl
  · intro n hn hkeep
    show n ∈ w1.liveNames k ns
    rw [hlive]
    refine List.mem_filter.2 ⟨hn, ?_⟩
    have hnot : ¬ n ∈ ((w.liveNames k ns).filter
        (fun n => !decide (n ∈ toKeep.map (fun item => item.Name)))).take i := by
      intro h
      have h2 := (List.mem_filter.1 (List.mem_of_mem_take h)).2
      simp only [Bool.not_eq_true', decide_eq_false_iff_not] at h2
      exact h2 hkeep
    simpa using hnot

/-- C11, at four live services of `shop` with the keep list `orders`: the
`Delete` of `cart` succeeds, the `Delete` of `legacy` fails. -/
theorem cleanUpInNamespace_aborts_witness :
    abortWorld.WF ∧ abortWorld.callsSucceed 2 ∧ abortWorld.faults[2]? = some true ∧
    (cleanUpInNamespace .service abortWorld "shop" [ordersService]).1 =
      Outcome.error Err.unavailable ∧
    (cleanUpInNamespace .service abortWorld "shop" [ordersService]).2.log =
      [Call.list .service "shop", Call.delete .service "shop" "cart",
        Call.delete .service "shop" "legacy"] ∧
    (cleanUpInNamespace .service abortWorld "shop" [ordersService]).2.liveNames .service "shop" =
      ["orders", "legacy", "search"] :=
  ⟨⟨fun k => by cases k <;> decide, by decide⟩, by decide, by decide,
    (cleanUpInNamespace_aborts .service abortWorld "shop" [ordersService] 1
      ⟨fun k => by cases k <;> decide, by decide⟩ (by decide) (by decide) (by decide)).1,
    (cleanUpInNamespace_aborts .service abortWorld "shop" [ordersService] 1
      ⟨fun k => by cases k <;> decide, by decide⟩ (by decide) (by decide) (by decide)).2.1,
    (cleanUpInNamespace_aborts .service abortWorld "shop" [ordersService] 1
      ⟨fun k => by cases k <;> decide, by decide⟩ (by decide) (by decide) (by decide)).2.2.1⟩

/-- C12: for a bundle with all five fields present, whatever the order in
which the groups are visited and whichever calls fail, every call
`CleanUpClusterResources` issues is a `List` of a pair (namespace, kind) in
which the bundle holds an object, or a `Delete` in such a pair of a name that
is not the name of a bundle object of that kind in that namespace (for
gateways the only such pair is the gateway's namespace); the live objects of
every other pair are unchanged; and no live object whose name the bundle holds
for its pair is removed.  When identities are unique, no call fails and each
group is visited once, the call returns nil and the live objects of each kind
are exactly the former ones that lie outside the bundle's pairs or carry a
name the bundle holds for their pair. -/
theorem CleanUpClusterResources_scope (rangeOrder : List String → List String) (w : World)
    (services : List Service) (deployments : List Deployment)
    (virtualServices : List VirtualService) (destinationRules : List DestinationRule)
    (gateway : Gateway) :
    (∃ calls : List Call,
      (CleanUpClusterResources rangeOrder w (some ⟨some deployments, some destinationRules,
        some gateway, some services, some virtualServices⟩)).2.log = w.log ++ calls ∧
      ∀ c ∈ calls, c.prunesWithin
        (desiredOf services deployments virtualServices destinationRules gateway) = true) ∧
    (∀ (k : Kind) (ns : String),
      ns ∉ scopeOf (desiredOf services deployments virtualServices destinationRules gateway) k →
      ((CleanUpClusterResources rangeOrder w (some ⟨some deployments, some destinationRules,
        some gateway, some services, some virtualServices⟩)).2.objs k).filter
          (fun o => decide (o.Namespace = ns)) =
        (w.objs k).filter (fun o => decide (o.Namespace = ns))) ∧
    (∀ (k : Kind) (x : Obj k.Spec), x ∈ w.objs k →
      x.Name ∈ keepNames (desiredOf services deployments virtualServices destinationRules
        gateway) k x.Namespace →
      x ∈ (CleanUpClusterResources rangeOrder w (some ⟨some deployments, some destinationRules,
        some gateway, some services, some virtualServices⟩)).2.objs k) ∧
    (w.WF → w.reliable → (∀ keys, (rangeOrder keys).Perm keys) →
      (CleanUpClusterResources rangeOrder w (some ⟨some deployments, some destinationRules,
        some gateway, some services, some virtualServices⟩)).1 = Outcome.nil ∧
      ∀ k : Kind,
        (CleanUpClusterResources rangeOrder w (some ⟨some deployments, some destinationRules,
          some gateway, some services, some virtualServices⟩)).2.objs k =
          (w.objs k).filter (fun x =>
            !decide (x.Namespace ∈ scopeOf
              (desiredOf services deployments virtualServices destinationRules gateway) k) ||
            decide (x.Name ∈ keepNames
              (desiredOf services deployments virtualServices destinationRules gateway) k
                x.Namespace))) := by
  obtain ⟨_, hlog, hobjs⟩ := CleanUpClusterResources_scoped rangeOrder w services deployments
    virtualServices destinationRules gateway
  refine ⟨hlog, ?_, ?_, ?_⟩
  · intro k ns hns
    obtain ⟨p, hp, hsafe⟩ := hobjs k
    rw [hp, List.filter_filter]
    apply List.filter_congr
    intro x _
    by_cases h1 : x.Namespace = ns
    · have h2 : p x = true := hsafe x (Or.inl (h1 ▸ hns))
      simp [h1, h2]
    · simp [h1]
  · intro k x hx hkeep
    obtain ⟨p, hp, hsafe⟩ := hobjs k
    rw [hp]
    exact List.mem_filter.2 ⟨hx, hsafe x (Or.inr hkeep)⟩
  · intro hwf hrel hperm
    obtain ⟨w5, hrun, hfinal⟩ := CleanUpClusterResources_reliable rangeOrder hperm w hwf hrel
      services deployments virtualServices destinationRules gateway
    rw [hrun]
    exact ⟨rfl, hfinal⟩

/-- C12, at a cluster with live objects in and out of the bundle's pairs and
the groups visited in order of first occurrence: the services and deployments
of `shop` are pruned to `orders`, the gateway of `ingress` that the bundle
does not name is removed, and the service of `billing` stays. -/
theorem CleanUpClusterResources_scope_witness :
    cleanUpWorld.WF ∧ cleanUpWorld.reliable ∧
    (CleanUpClusterResources (fun keys => keys) cleanUpWorld
      (some ⟨some [ordersDeployment], some [ordersDR], some ingressGateway,
        some [ordersService], some [ordersVS]⟩)).1 = Outcome.nil ∧
    (CleanUpClusterResources (fun keys => keys) cleanUpWorld
      (some ⟨some [ordersDeployment], some [ordersDR], some ingressGateway,
        some [ordersService], some [ordersVS]⟩)).2.services =
      [ordersService.withVersion 1, billingService] ∧
    (CleanUpClusterResources (fun keys => keys) cleanUpWorld
      (some ⟨some [ordersDeployment], some [ordersDR], some ingressGateway,
        some [ordersService], some [ordersVS]⟩)).2.deployments =
      [ordersDeployment.withVersion 4] ∧
    (CleanUpClusterResources (fun keys => keys) cleanUpWorld
      (some ⟨some [ordersDeployment], some [ordersDR], some ingressGateway,
        some [ordersService], some [ordersVS]⟩)).2.gateways = [] :=
  ⟨⟨fun k => by cases k <;> decide, by decide⟩, by decide,
    ((CleanUpClusterResources_scope (fun keys => keys) cleanUpWorld [ordersService]
      [ordersDeployment] [ordersVS] [ordersDR] ingressGateway).2.2.2
        ⟨fun k => by cases k <;> decide, by decide⟩ (by decide)
        (fun keys => List.Perm.refl keys)).1,
    by decide, by decide, by decide⟩

/-- C10: for a bundle with all five fields present, the list of namespaces
`ApplyClusterResources` walks to call `ensureNamespace` has no duplicates and
holds exactly the namespaces of the bundle's services, deployments, virtual
services, destination rules and gateway.  On every run, whatever fails, the
calls issued are a run of namespace calls followed by a run with no namespace
call, so every `ensureNamespace` call precedes the first upsert; the
namespaces ensured (one `Get` each, in order) are a prefix of that list, and
the whole list if any upsert call is issued.  When every `ensureNamespace`
call returns nil, the namespaces ensured are the whole list, whether or not a
later upsert fails.  That is the case when no call fails and no stored
namespace has a nil label map. -/
theorem ApplyClusterResources_ensures_each_namespace_once (w : World)
    (services : List Service) (deployments : List Deployment)
    (virtualServices : List VirtualService) (destinationRules : List DestinationRule)
    (gateway : Gateway) :
    (uniqueNamespaces services deployments virtualServices destinationRules gateway).Nodup ∧
    (∀ ns : String,
      ns ∈ uniqueNamespaces services deployments virtualServices destinationRules gateway ↔
        (∃ s ∈ services, s.Namespace = ns) ∨ (∃ d ∈ deployments, d.Namespace = ns) ∨
          (∃ v ∈ virtualServices, v.Namespace = ns) ∨
          (∃ r ∈ destinationRules, r.Namespace = ns) ∨ gateway.Namespace = ns) ∧
    (∃ pre post : List Call,
      (ApplyClusterResources w (some ⟨some deployments, some destinationRules, some gateway,
        some services, some virtualServices⟩)).2.2.log = w.log ++ pre ++ post ∧
      (∀ c ∈ pre, c.isNamespaceCall = true) ∧
      (∀ c ∈ post, c.isNamespaceCall = false) ∧
      ensuredNamespaces pre <+:
        uniqueNamespaces services deployments virtualServices destinationRules gateway ∧
      (post ≠ [] → ensuredNamespaces pre =
        uniqueNamespaces services deployments virtualServices destinationRules gateway) ∧
      ((forRange ensureNamespace w (uniqueNamespaces services deployments virtualServices
          destinationRules gateway)).1 = Outcome.nil →
        ensuredNamespaces pre =
          uniqueNamespaces services deployments virtualServices destinationRules gateway)) ∧
    (w.reliable → (∀ x ∈ w.namespaces, x.Labels ≠ none) →
      (forRange ensureNamespace w (uniqueNamespaces services deployments virtualServices
        destinationRules gateway)).1 = Outcome.nil) := by
  refine ⟨Uniq_nodup _, mem_uniqueNamespaces _ _ _ _ _, ?_,
    fun hrel hlab => ensureLoop_nil_of_labels _ w hrel hlab⟩
  rw [ApplyClusterResources_full]
  obtain ⟨pre, hlog, hpre, hprefix, hens⟩ := ensureLoop_log_prefix
    (uniqueNamespaces services deployments virtualServices destinationRules gateway) w
  rcases hrun : forRange ensureNamespace w
    (uniqueNamespaces services deployments virtualServices destinationRules gateway) with ⟨r, w1⟩
  rw [hrun] at hlog hens
  cases r with
  | nil =>
    simp only at hlog ⊢
    obtain ⟨post, hlog2, hpost⟩ :=
      applyUpserts_log w1 services deployments virtualServices destinationRules gateway
    refine ⟨pre, post, by rw [hlog2, hlog], hpre, ?_, hprefix, fun _ => hens rfl,
      fun _ => hens rfl⟩
    intro c hc
    simpa using hpost c hc
  | error e =>
    simp only at hlog ⊢
    exact ⟨pre, [], by rw [hlog, List.append_nil], hpre, by simp, hprefix,
      fun h => absurd rfl h, fun h => by simp at h⟩
  | panicked =>
    simp only at hlog ⊢
    exact ⟨pre, [], by rw [hlog, List.append_nil], hpre, by simp, hprefix,
      fun h => absurd rfl h, fun h => by simp at h⟩

/-- C10, at a cluster where `shop` is stored without the injection label and
`ingress` is absent, and a bundle whose objects live in `shop` and whose
gateway lives in `ingress`: the namespaces ensured are `shop`, then
`ingress`. -/
theorem ApplyClusterResources_ensures_each_namespace_once_witness :
    shopWorld.reliable ∧ (∀ x ∈ shopWorld.namespaces, x.Labels ≠ none) ∧
    ∃ pre post : List Call,
      (ApplyClusterResources shopWorld (some ⟨some [ordersDeployment], some [ordersDR],
        some ingressGateway, some [ordersService], some [ordersVS]⟩)).2.2.log =
          shopWorld.log ++ pre ++ post ∧
      (∀ c ∈ pre, c.isNamespaceCall = true) ∧
      (∀ c ∈ post, c.isNamespaceCall = false) ∧
      ensuredNamespaces pre = ["shop", "ingress"] := by
  obtain ⟨_, _, ⟨pre, post, hlog, hpre, hpost, _, _, hall⟩, hnil⟩ :=
    ApplyClusterResources_ensures_each_namespace_once shopWorld [ordersService]
      [ordersDeployment] [ordersVS] [ordersDR] ingressGateway
  exact ⟨by decide, by decide, pre, post, hlog, hpre, hpost,
    hall (hnil (by decide) (by decide))⟩

end Kardinal
